import Mathlib

/-!
Verification of the cpp-snippets repository against its specification.

Part 1 embeds the modular-arithmetic routines of
`src/modular_arithmetic_main.cpp` (`mod_add`, `mod_multiply`).  `uint64_t`
values are modelled as `Nat` together with explicit wrapping modulo `2^64`
in the helper operations `u64add` and `u64sub`, so that each C++ expression
is translated operation by operation.

Part 2 embeds the `RandomAccessUnorderedMap` container of the unnamed
source file: the dense store `element_set` (a `std::vector`) becomes a
`List`, and the position index `index_map` (a `std::unordered_map<K,
uint32_t>`, whose keys are unique and whose iteration order is irrelevant)
becomes an association list with pairwise-distinct keys.
-/

set_option maxHeartbeats 1000000
set_option maxRecDepth 16384
set_option linter.unusedSectionVars false
set_option linter.unusedVariables false

/-- The modulus of 64-bit unsigned machine arithmetic, `2 ^ 64` written as a
numeral so that `omega` can work with it. -/
def UINT64_MOD : Nat := 18446744073709551616

/-- The modulus of 32-bit unsigned machine arithmetic, `2 ^ 32` written as a
numeral: the value type of the container's `std::unordered_map<K, uint32_t>`
index wraps modulo this. -/
def UINT32_MOD : Nat := 4294967296

/-- The value obtained when a `size_t` quantity is narrowed into a C++
`int` (32 bits on the usual LP64/LLP64 data models): the low 32 bits
reinterpreted in two's complement. -/
def to_cpp_int (x : Nat) : Int :=
  if x % UINT32_MOD < 2147483648 then ((x % UINT32_MOD : Nat) : Int)
  else ((x % UINT32_MOD : Nat) : Int) - 4294967296

/-- Addition of two `uint64_t` values, wrapping modulo `2 ^ 64`. -/
def u64add (a b : Nat) : Nat := (a + b) % UINT64_MOD

/-- Subtraction of two `uint64_t` values, wrapping modulo `2 ^ 64`
(for `a, b < 2 ^ 64` this is the two's-complement wrap of `a - b`). -/
def u64sub (a b : Nat) : Nat := (a + UINT64_MOD - b) % UINT64_MOD

/-- Translation of `mod_add` from `src/modular_arithmetic_main.cpp`:
if `b == 0` return `a`; otherwise set `b = n - b` and return `a - b` when
`a >= b`, else `n - b + a`.  All operations are `uint64_t` operations. -/
def mod_add (a b n : Nat) : Nat :=
  if b = 0 then a
  else
    let b2 := u64sub n b
    if b2 ≤ a then u64sub a b2
    else u64add (u64sub n b2) a

/-- The same computation as `mod_add`, but carried out over unbounded
integers (no wrapping modulo `2 ^ 64` anywhere).  Used to express that no
intermediate result of `mod_add` wraps on valid inputs. -/
def mod_add_exact (a b n : Int) : Int :=
  if b = 0 then a
  else
    let b2 := n - b
    if b2 ≤ a then a - b2
    else n - b2 + a

/-- The loop of `mod_multiply` from `src/modular_arithmetic_main.cpp`:
while `b` is nonzero, add `a` into the product when the low bit of `b` is
set, double `a` modulo `n`, and shift `b` right by one. -/
def mod_multiply_loop (product a b n : Nat) : Nat :=
  if h : b = 0 then product
  else
    mod_multiply_loop (if b % 2 = 1 then mod_add product a n else product)
      (mod_add a a n) (b / 2) n
termination_by b
decreasing_by exact Nat.div_lt_self (Nat.pos_of_ne_zero h) one_lt_two

/-- Translation of `mod_multiply` from `src/modular_arithmetic_main.cpp`:
swap `a` and `b` when `b > a`, then run the double-and-add loop. -/
def mod_multiply (a b n : Nat) : Nat :=
  if b > a then mod_multiply_loop 0 b a n else mod_multiply_loop 0 a b n

theorem u64sub_eq_of_le {a b : Nat} (hba : b ≤ a) (ha : a < UINT64_MOD) :
    u64sub a b = a - b := by
  unfold u64sub
  unfold UINT64_MOD at *
  have h1 : a + 18446744073709551616 - b = (a - b) + 18446744073709551616 := by omega
  rw [h1, Nat.add_mod_right, Nat.mod_eq_of_lt (by omega)]

theorem mod_add_eq (a b n : Nat) (ha : a < n) (hb : b < n) (hn : n < UINT64_MOD) :
    mod_add a b n = (a + b) % n := by
  unfold mod_add
  by_cases hb0 : b = 0
  · subst hb0
    simp [Nat.mod_eq_of_lt ha]
  · simp only [if_neg hb0]
    have hb2 : u64sub n b = n - b := u64sub_eq_of_le (le_of_lt hb) hn
    rw [hb2]
    by_cases hcase : n - b ≤ a
    · rw [if_pos hcase, u64sub_eq_of_le hcase (lt_trans ha hn)]
      have h1 : n ≤ a + b := by omega
      rw [Nat.mod_eq_sub_mod h1, Nat.mod_eq_of_lt (by omega)]
      omega
    · rw [if_neg hcase]
      have h3 : u64sub n (n - b) = b := by
        rw [u64sub_eq_of_le (by omega) hn]
        omega
      rw [h3]
      unfold u64add
      rw [Nat.mod_eq_of_lt (by unfold UINT64_MOD at *; omega),
        Nat.mod_eq_of_lt (by omega)]
      omega

theorem mod_add_lt (a b n : Nat) (ha : a < n) (hb : b < n) (hn : n < UINT64_MOD) :
    mod_add a b n < n := by
  rw [mod_add_eq a b n ha hb hn]
  exact Nat.mod_lt _ (by omega)

theorem mod_add_cast_eq_exact (a b n : Nat) (ha : a < n) (hb : b < n)
    (hn : n < UINT64_MOD) :
    ((mod_add a b n : Nat) : Int) = mod_add_exact (a : Int) (b : Int) (n : Int) := by
  unfold mod_add mod_add_exact
  by_cases hb0 : b = 0
  · subst hb0
    simp
  · have hb0' : (b : Int) ≠ 0 := by exact_mod_cast hb0
    simp only [if_neg hb0, if_neg hb0']
    have hb2 : u64sub n b = n - b := u64sub_eq_of_le (le_of_lt hb) hn
    rw [hb2]
    have hcast : ((n - b : Nat) : Int) = (n : Int) - (b : Int) := by
      push_cast [Nat.cast_sub (le_of_lt hb)]
      ring
    by_cases hcase : n - b ≤ a
    · have hcase' : (n : Int) - (b : Int) ≤ (a : Int) := by
        rw [← hcast]
        exact_mod_cast hcase
      rw [if_pos hcase, if_pos hcase', u64sub_eq_of_le hcase (lt_trans ha hn)]
      push_cast [Nat.cast_sub hcase]
      rw [hcast]
    · have hcase' : ¬ ((n : Int) - (b : Int) ≤ (a : Int)) := by
        rw [← hcast]
        intro h
        exact hcase (by exact_mod_cast h)
      rw [if_neg hcase, if_neg hcase']
      have h3 : u64sub n (n - b) = b := by
        rw [u64sub_eq_of_le (by omega) hn]
        omega
      rw [h3]
      unfold u64add
      rw [Nat.mod_eq_of_lt (by unfold UINT64_MOD at *; omega)]
      push_cast
      omega

/-- C9: for all 64-bit unsigned integers `a`, `b`, `n` with `a < n` and
`b < n`, `mod_add(a, b, n)` returns the mathematical value `(a + b) mod n`,
and it agrees with the same computation performed over unbounded integers,
so no intermediate result wraps modulo `2 ^ 64` — correct even when
`a + b ≥ 2 ^ 64`. -/
theorem C9_mod_add_correct (a b n : Nat) (ha : a < n) (hb : b < n)
    (hn : n < UINT64_MOD) :
    mod_add a b n = (a + b) % n ∧
    ((mod_add a b n : Nat) : Int) = mod_add_exact (a : Int) (b : Int) (n : Int) :=
  ⟨mod_add_eq a b n ha hb hn, mod_add_cast_eq_exact a b n ha hb hn⟩

/-- Witness for C9 at concrete inputs whose sum exceeds `2 ^ 64`. -/
theorem C9_mod_add_correct_witness :
    2 ^ 63 + 5 < 2 ^ 63 + 10 ∧
    (mod_add (2 ^ 63 + 5) (2 ^ 63 + 3) (2 ^ 63 + 10) = ((2 ^ 63 + 5) + (2 ^ 63 + 3)) % (2 ^ 63 + 10) ∧
     ((mod_add (2 ^ 63 + 5) (2 ^ 63 + 3) (2 ^ 63 + 10) : Nat) : Int) =
       mod_add_exact ((2 ^ 63 + 5 : Nat) : Int) ((2 ^ 63 + 3 : Nat) : Int) ((2 ^ 63 + 10 : Nat) : Int)) :=
  ⟨by decide, C9_mod_add_correct (2 ^ 63 + 5) (2 ^ 63 + 3) (2 ^ 63 + 10)
    (by decide) (by decide) (by decide)⟩

theorem mod_multiply_loop_eq (n : Nat) (hn : n < UINT64_MOD) :
    ∀ b product a, product < n → a < n →
      mod_multiply_loop product a b n = (product + a * b) % n := by
  intro b
  induction b using Nat.strong_induction_on with
  | _ b ih =>
    intro product a hp ha
    rw [mod_multiply_loop]
    by_cases hb0 : b = 0
    · simp only [dif_pos hb0]
      subst hb0
      simp [Nat.mod_eq_of_lt hp]
    · simp only [dif_neg hb0]
      have hdiv : b / 2 < b := Nat.div_lt_self (Nat.pos_of_ne_zero hb0) one_lt_two
      have hp' : (if b % 2 = 1 then mod_add product a n else product) < n := by
        by_cases hodd : b % 2 = 1
        · simp only [if_pos hodd]
          exact mod_add_lt _ _ _ hp ha hn
        · simp only [if_neg hodd]
          exact hp
      have ha' : mod_add a a n < n := mod_add_lt _ _ _ ha ha hn
      rw [ih (b / 2) hdiv _ _ hp' ha']
      show _ = (product + a * b) % n
      have hmodeq1 : Nat.ModEq n (mod_add a a n) (a + a) := by
        rw [mod_add_eq a a n ha ha hn]
        exact Nat.mod_modEq (a + a) n
      by_cases hodd : b % 2 = 1
      · simp only [if_pos hodd]
        have hmodeq0 : Nat.ModEq n (mod_add product a n) (product + a) := by
          rw [mod_add_eq product a n hp ha hn]
          exact Nat.mod_modEq (product + a) n
        have hfinal : Nat.ModEq n (mod_add product a n + mod_add a a n * (b / 2))
            (product + a * b) := by
          have step : Nat.ModEq n (mod_add product a n + mod_add a a n * (b / 2))
              ((product + a) + (a + a) * (b / 2)) :=
            Nat.ModEq.add hmodeq0 (Nat.ModEq.mul hmodeq1 (Nat.ModEq.refl _))
          have harith : (product + a) + (a + a) * (b / 2) = product + a * b := by
            have hb2 : 2 * (b / 2) + 1 = b := by omega
            calc (product + a) + (a + a) * (b / 2)
                = product + a * (2 * (b / 2) + 1) := by ring
              _ = product + a * b := by rw [hb2]
          exact harith ▸ step
        exact hfinal
      · simp only [if_neg hodd]
        have hfinal : Nat.ModEq n (product + mod_add a a n * (b / 2))
            (product + a * b) := by
          have step : Nat.ModEq n (product + mod_add a a n * (b / 2))
              (product + (a + a) * (b / 2)) :=
            Nat.ModEq.add (Nat.ModEq.refl _) (Nat.ModEq.mul hmodeq1 (Nat.ModEq.refl _))
          have harith : product + (a + a) * (b / 2) = product + a * b := by
            have hb2 : 2 * (b / 2) = b := by omega
            calc product + (a + a) * (b / 2)
                = product + a * (2 * (b / 2)) := by ring
              _ = product + a * b := by rw [hb2]
          exact harith ▸ step
        exact hfinal

/-- C10: for all 64-bit unsigned integers `a`, `b`, `n` with `a < n` and
`b < n`, `mod_multiply(a, b, n)` returns the mathematical value
`(a * b) mod n`, exact even when the full product `a * b` exceeds `2 ^ 64`,
via the double-and-add loop built on `mod_add`. -/
theorem C10_mod_multiply_correct (a b n : Nat) (ha : a < n) (hb : b < n)
    (hn : n < UINT64_MOD) :
    mod_multiply a b n = (a * b) % n := by
  unfold mod_multiply
  by_cases hswap : b > a
  · rw [if_pos hswap, mod_multiply_loop_eq n hn a 0 b (by omega) hb]
    rw [Nat.zero_add, Nat.mul_comm]
  · rw [if_neg hswap, mod_multiply_loop_eq n hn b 0 a (by omega) ha]
    rw [Nat.zero_add]

/-- Witness for C10 at concrete inputs whose full product exceeds `2 ^ 64`. -/
theorem C10_mod_multiply_correct_witness :
    2 ^ 63 + 2 < 2 ^ 63 + 11 ∧
    mod_multiply (2 ^ 63 + 2) (2 ^ 63 + 1) (2 ^ 63 + 11) =
      ((2 ^ 63 + 2) * (2 ^ 63 + 1)) % (2 ^ 63 + 11) :=
  ⟨by decide, C10_mod_multiply_correct (2 ^ 63 + 2) (2 ^ 63 + 1) (2 ^ 63 + 11)
    (by decide) (by decide) (by decide)⟩

/-!
Part 2: the `RandomAccessUnorderedMap` container.

`element_set` (a `std::vector<Element>`) is modelled as a `List (Element K V)`;
a `vector` subscript that would be out of range in C++ (undefined behaviour)
is modelled by `List.getD` with the `default` element.  `index_map` (a
`std::unordered_map<K, uint32_t>`, so its keys are pairwise distinct and its
iteration order carries no meaning) is modelled as an association list
`List (K × Nat)`; the representation well-formedness that the map's type
guarantees — pairwise-distinct keys (`keysNodup`) and slot values below
`2 ^ 32` (the `uint32_t` value type) — is part of the data model.  The two
machine-width narrowings of the source are modelled explicitly: `insert`
stores `element_set.size() - 1` reduced modulo `2 ^ 32` (the `size_t` to
`uint32_t` narrowing of part_000 line 118), and the distribution bound of
`random_key` is the `size_t` value `size() - 1` narrowed to a 32-bit `int`
(`to_cpp_int`).  The `std::mt19937` member holds no container data, so it
is not part of the state; `random_key` instead receives the integer drawn
from the uniform distribution as an explicit argument.
-/

/-- Lookup in an association list, modelling `std::unordered_map::find`:
the value paired with the first occurrence of the key, if any. -/
def alist_find {K : Type} [DecidableEq K] : List (K × Nat) → K → Option Nat
  | [], _ => none
  | p :: rest, key => if p.1 = key then some p.2 else alist_find rest key

/-- Erasure from an association list, modelling `std::unordered_map::erase`:
drop the (unique, when keys are distinct) entry holding the key. -/
def alist_erase {K : Type} [DecidableEq K] : List (K × Nat) → K → List (K × Nat)
  | [], _ => []
  | p :: rest, key => if p.1 = key then rest else p :: alist_erase rest key

/-- Assignment through `std::unordered_map::operator[]`: overwrite the value
of an existing entry, or add a new entry when the key is absent. -/
def alist_set {K : Type} [DecidableEq K] : List (K × Nat) → K → Nat → List (K × Nat)
  | [], key, val => [(key, val)]
  | p :: rest, key, val =>
      if p.1 = key then (key, val) :: rest else p :: alist_set rest key val

/-- Modelling `std::unordered_map::insert`: it does nothing when the key is
already present, and adds the entry otherwise. -/
def alist_insert {K : Type} [DecidableEq K] (l : List (K × Nat)) (key : K) (val : Nat) :
    List (K × Nat) :=
  if (alist_find l key).isSome then l else l ++ [(key, val)]

/-- Well-formedness of the association-list representation of an
`std::unordered_map`: its keys are pairwise distinct. -/
def keysNodup {K : Type} (l : List (K × Nat)) : Prop := (l.map Prod.fst).Nodup

instance {K : Type} [DecidableEq K] (l : List (K × Nat)) : Decidable (keysNodup l) :=
  inferInstanceAs (Decidable (l.map Prod.fst).Nodup)

/-- The `Element` struct of `RandomAccessUnorderedMap`: one (key, value)
entry of the dense store. -/
structure Element (K V : Type) where
  key : K
  value : V
deriving Repr, DecidableEq

instance {K V : Type} [Inhabited K] [Inhabited V] : Inhabited (Element K V) :=
  ⟨⟨default, default⟩⟩

/-- The state of a `RandomAccessUnorderedMap`: the dense store
`element_set` and the position index `index_map`. -/
structure RandomAccessUnorderedMap (K V : Type) where
  element_set : List (Element K V)
  index_map : List (K × Nat)
deriving Repr, DecidableEq

namespace RandomAccessUnorderedMap

variable {K V : Type} [DecidableEq K] [Inhabited K] [Inhabited V]

/-- The state after the constructor ran: both members empty. -/
def empty : RandomAccessUnorderedMap K V := ⟨[], []⟩

/-- Translation of the private helper `find_index`: look the key up in
`index_map`, returning `nullopt` when absent. -/
def find_index (m : RandomAccessUnorderedMap K V) (key : K) : Option Nat :=
  alist_find m.index_map key

/-- Translation of `find`: when `find_index` yields an index, return
`element_set[index].value`, else `nullopt`. -/
def find (m : RandomAccessUnorderedMap K V) (key : K) : Option V :=
  match find_index m key with
  | some index => some ((m.element_set.getD index default).value)
  | none => none

/-- The body of `remove` once `find_index` has produced `index`.  When
`index` is the last slot, `pop_back` and erase the key; otherwise swap
`element_set[index]` with the last element, `pop_back`, read the key now
sitting at `index` (`local_key`), point `index_map[local_key]` at `index`,
and erase the removed key.  An empty `element_set` cannot reach this code
under the data model, so `size() - 1` does not underflow here. -/
def removeFound (m : RandomAccessUnorderedMap K V) (key : K) (index : Nat) :
    RandomAccessUnorderedMap K V :=
  if index = m.element_set.length - 1 then
    ⟨m.element_set.dropLast, alist_erase m.index_map key⟩
  else
    let last := m.element_set.length - 1
    let swapped := ((m.element_set.set index (m.element_set.getD last default)).set
        last (m.element_set.getD index default)).dropLast
    let local_key := (swapped.getD index default).key
    ⟨swapped, alist_erase (alist_set m.index_map local_key index) key⟩

/-- Translation of `remove`: a no-op when the key is absent, otherwise the
swap-and-pop removal above. -/
def remove (m : RandomAccessUnorderedMap K V) (key : K) : RandomAccessUnorderedMap K V :=
  match find_index m key with
  | none => m
  | some index => removeFound m key index

/-- Translation of `insert`: first `remove` the key, then append the new
entry to the dense store and record `key -> size() - 1` in the index.  The
`size_t` value `element_set.size() - 1` is narrowed into the map's
`uint32_t` value type, wrapping modulo `2 ^ 32`. -/
def insert (m : RandomAccessUnorderedMap K V) (key : K) (value : V) :
    RandomAccessUnorderedMap K V :=
  let m1 := remove m key
  let element_set2 := m1.element_set ++ [⟨key, value⟩]
  ⟨element_set2, alist_insert m1.index_map key ((element_set2.length - 1) % UINT32_MOD)⟩

/-- Modelled from the spec: the C++ class exposes no `size()` member (its
`element_set` is public instead); the spec defines `size()` as the number of
live entries, `len(S)`. -/
def size (m : RandomAccessUnorderedMap K V) : Nat := m.element_set.length

/-- The upper bound handed to `std::uniform_int_distribution<>` (whose
value type is `int`) by `random_key`: `element_set.size() - 1` is computed
in `size_t` arithmetic (wrapping to `2 ^ 64 - 1` on an empty store) and
then narrowed to `int`, so an empty store yields `-1` and a store of more
than `2 ^ 31` entries yields a negative bound — both invalid distribution
ranges. -/
def random_key_upper_bound (m : RandomAccessUnorderedMap K V) : Int :=
  to_cpp_int ((m.element_set.length + UINT64_MOD - 1) % UINT64_MOD)

/-- Translation of `random_key`, with the integer drawn from the uniform
distribution passed explicitly: returns `element_set[random_index].key`,
an out-of-range subscript (undefined behaviour in C++) being modelled by
the `default` element. -/
def random_key (m : RandomAccessUnorderedMap K V) (random_index : Nat) : K :=
  (m.element_set.getD random_index default).key

/-- One mutating call of the public interface (`find` does not change the
state, so sequences of calls are determined by their mutating members). -/
inductive Op (K V : Type) where
  | ins : K → V → Op K V
  | rem : K → Op K V

/-- Apply one mutating call. -/
def applyOp (m : RandomAccessUnorderedMap K V) : Op K V → RandomAccessUnorderedMap K V
  | Op.ins k v => insert m k v
  | Op.rem k => remove m k

/-- Apply a finite sequence of calls, oldest first. -/
def applyOps (m : RandomAccessUnorderedMap K V) (ops : List (Op K V)) :
    RandomAccessUnorderedMap K V :=
  ops.foldl applyOp m

/-- The key an operation touches. -/
def opKey {K V : Type} : Op K V → K
  | Op.ins k _ => k
  | Op.rem k => k

/-- The consistency invariant of the container, together with the two
facts the `std::unordered_map<K, uint32_t>` representation guarantees by
its type alone: keys are pairwise distinct (`keysNodup`) and every stored
slot value fits `uint32_t`.  Beyond that, every index entry points at a
valid slot holding its key, and the index and the store have the same
number of entries. -/
def Invariant (m : RandomAccessUnorderedMap K V) : Prop :=
  keysNodup m.index_map ∧
  (∀ p ∈ m.index_map, p.2 < m.element_set.length ∧
      (m.element_set.getD p.2 default).key = p.1) ∧
  m.index_map.length = m.element_set.length ∧
  (∀ p ∈ m.index_map, p.2 < UINT32_MOD)

instance (m : RandomAccessUnorderedMap K V) : Decidable (Invariant m) :=
  inferInstanceAs (Decidable (keysNodup m.index_map ∧
    (∀ p ∈ m.index_map, p.2 < m.element_set.length ∧
        (m.element_set.getD p.2 default).key = p.1) ∧
    m.index_map.length = m.element_set.length ∧
    (∀ p ∈ m.index_map, p.2 < UINT32_MOD)))

end RandomAccessUnorderedMap

section AlistLemmas

variable {K : Type} [DecidableEq K]

theorem alist_find_eq_none_of_not_mem_keys {l : List (K × Nat)} {key : K}
    (h : key ∉ l.map Prod.fst) : alist_find l key = none := by
  induction l with
  | nil => rfl
  | cons p rest ih =>
    simp only [List.map_cons, List.mem_cons, not_or] at h
    rw [alist_find, if_neg (fun hh => h.1 hh.symm)]
    exact ih h.2

theorem alist_mem_of_find {l : List (K × Nat)} {key : K} {i : Nat}
    (h : alist_find l key = some i) : (key, i) ∈ l := by
  induction l with
  | nil => simp [alist_find] at h
  | cons p rest ih =>
    rw [alist_find] at h
    by_cases hp : p.1 = key
    · rw [if_pos hp] at h
      injection h with h2
      have hpe : p = (key, i) := by
        obtain ⟨p1, p2⟩ := p
        simp_all
      exact List.mem_cons.mpr (Or.inl hpe.symm)
    · rw [if_neg hp] at h
      exact List.mem_cons_of_mem _ (ih h)

theorem alist_find_of_mem {l : List (K × Nat)} (hnd : keysNodup l) {key : K} {i : Nat}
    (h : (key, i) ∈ l) : alist_find l key = some i := by
  induction l with
  | nil => simp at h
  | cons p rest ih =>
    rw [keysNodup, List.map_cons, List.nodup_cons] at hnd
    rcases List.mem_cons.mp h with heq | hmem
    · rw [← heq, alist_find, if_pos rfl]
    · rw [alist_find]
      have hne : p.1 ≠ key := by
        intro hcontra
        exact hnd.1 (hcontra ▸ (List.mem_map.mpr ⟨(key, i), hmem, rfl⟩))
      rw [if_neg hne]
      exact ih hnd.2 hmem

theorem alist_find_mem_keys {l : List (K × Nat)} {key : K} {i : Nat}
    (h : alist_find l key = some i) : key ∈ l.map Prod.fst :=
  List.mem_map.mpr ⟨(key, i), alist_mem_of_find h, rfl⟩

theorem alist_find_append_left {l1 l2 : List (K × Nat)} {key : K} {i : Nat}
    (h : alist_find l1 key = some i) : alist_find (l1 ++ l2) key = some i := by
  induction l1 with
  | nil => simp [alist_find] at h
  | cons p rest ih =>
    rw [alist_find] at h
    rw [List.cons_append, alist_find]
    by_cases hp : p.1 = key
    · rwa [if_pos hp] at h ⊢
    · rw [if_neg hp] at h ⊢
      exact ih h

theorem alist_find_append_right {l1 l2 : List (K × Nat)} {key : K}
    (h : alist_find l1 key = none) : alist_find (l1 ++ l2) key = alist_find l2 key := by
  induction l1 with
  | nil => rfl
  | cons p rest ih =>
    rw [alist_find] at h
    rw [List.cons_append, alist_find]
    by_cases hp : p.1 = key
    · rw [if_pos hp] at h
      exact absurd h (by simp)
    · rw [if_neg hp] at h ⊢
      exact ih h

theorem alist_erase_of_find_none {l : List (K × Nat)} {key : K}
    (h : alist_find l key = none) : alist_erase l key = l := by
  induction l with
  | nil => rfl
  | cons p rest ih =>
    rw [alist_find] at h
    by_cases hp : p.1 = key
    · rw [if_pos hp] at h
      exact absurd h (by simp)
    · rw [if_neg hp] at h
      rw [alist_erase, if_neg hp, ih h]

theorem alist_erase_map_fst_sublist (l : List (K × Nat)) (key : K) :
    ((alist_erase l key).map Prod.fst).Sublist (l.map Prod.fst) := by
  induction l with
  | nil => simp [alist_erase]
  | cons p rest ih =>
    rw [alist_erase]
    by_cases hp : p.1 = key
    · rw [if_pos hp, List.map_cons]
      exact (List.sublist_cons_self _ _)
    · rw [if_neg hp, List.map_cons, List.map_cons]
      exact ih.cons₂ p.1

theorem keysNodup_erase {l : List (K × Nat)} (hnd : keysNodup l) (key : K) :
    keysNodup (alist_erase l key) :=
  List.Nodup.sublist (alist_erase_map_fst_sublist l key) hnd

theorem alist_find_erase_self {l : List (K × Nat)} (hnd : keysNodup l) (key : K) :
    alist_find (alist_erase l key) key = none := by
  induction l with
  | nil => rfl
  | cons p rest ih =>
    rw [keysNodup, List.map_cons, List.nodup_cons] at hnd
    rw [alist_erase]
    by_cases hp : p.1 = key
    · rw [if_pos hp]
      exact alist_find_eq_none_of_not_mem_keys (hp ▸ hnd.1)
    · rw [if_neg hp, alist_find, if_neg hp]
      exact ih hnd.2

theorem alist_find_erase_ne {l : List (K × Nat)} {key k2 : K} (hne : k2 ≠ key) :
    alist_find (alist_erase l key) k2 = alist_find l k2 := by
  induction l with
  | nil => rfl
  | cons p rest ih =>
    rw [alist_erase]
    by_cases hp : p.1 = key
    · rw [if_pos hp, alist_find, if_neg (by rw [hp]; exact fun h => hne h.symm)]
    · rw [if_neg hp, alist_find, alist_find]
      by_cases hp2 : p.1 = k2
      · rw [if_pos hp2, if_pos hp2]
      · rw [if_neg hp2, if_neg hp2]
        exact ih

theorem alist_erase_length {l : List (K × Nat)} {key : K}
    (h : (alist_find l key).isSome) : (alist_erase l key).length + 1 = l.length := by
  induction l with
  | nil => simp [alist_find] at h
  | cons p rest ih =>
    rw [alist_find] at h
    rw [alist_erase]
    by_cases hp : p.1 = key
    · rw [if_pos hp]
      simp
    · rw [if_neg hp] at h
      rw [if_neg hp, List.length_cons, List.length_cons, ih h]

theorem alist_mem_erase {l : List (K × Nat)} (hnd : keysNodup l) {key : K} {p : K × Nat}
    (h : p ∈ alist_erase l key) : p ∈ l ∧ p.1 ≠ key := by
  induction l with
  | nil => simp [alist_erase] at h
  | cons q rest ih =>
    rw [keysNodup, List.map_cons, List.nodup_cons] at hnd
    rw [alist_erase] at h
    by_cases hq : q.1 = key
    · rw [if_pos hq] at h
      refine ⟨List.mem_cons_of_mem _ h, ?_⟩
      intro hcontra
      exact hnd.1 (hq ▸ hcontra ▸ (List.mem_map.mpr ⟨p, h, rfl⟩))
    · rw [if_neg hq] at h
      rcases List.mem_cons.mp h with heq | hmem
      · exact ⟨heq ▸ List.mem_cons_self _ _, heq ▸ hq⟩
      · obtain ⟨h1, h2⟩ := ih hnd.2 hmem
        exact ⟨List.mem_cons_of_mem _ h1, h2⟩

theorem alist_find_set_self (l : List (K × Nat)) (key : K) (val : Nat) :
    alist_find (alist_set l key val) key = some val := by
  induction l with
  | nil => simp [alist_set, alist_find]
  | cons p rest ih =>
    rw [alist_set]
    by_cases hp : p.1 = key
    · rw [if_pos hp, alist_find, if_pos rfl]
    · rw [if_neg hp, alist_find, if_neg hp]
      exact ih

theorem alist_find_set_ne {l : List (K × Nat)} {key k2 : K} (hne : k2 ≠ key) (val : Nat) :
    alist_find (alist_set l key val) k2 = alist_find l k2 := by
  induction l with
  | nil => simp [alist_set, alist_find, Ne.symm hne]
  | cons p rest ih =>
    rw [alist_set]
    by_cases hp : p.1 = key
    · rw [if_pos hp, alist_find, if_neg (fun h => hne h.symm), alist_find,
        if_neg (by rw [hp]; exact fun h => hne h.symm)]
    · rw [if_neg hp, alist_find, alist_find]
      by_cases hp2 : p.1 = k2
      · rw [if_pos hp2, if_pos hp2]
      · rw [if_neg hp2, if_neg hp2]
        exact ih

theorem alist_set_map_fst_of_find_isSome {l : List (K × Nat)} {key : K}
    (h : (alist_find l key).isSome) (val : Nat) :
    (alist_set l key val).map Prod.fst = l.map Prod.fst := by
  induction l with
  | nil => simp [alist_find] at h
  | cons p rest ih =>
    rw [alist_find] at h
    rw [alist_set]
    by_cases hp : p.1 = key
    · rw [if_pos hp, List.map_cons, List.map_cons, hp]
    · rw [if_neg hp] at h
      rw [if_neg hp, List.map_cons, List.map_cons, ih h]

theorem alist_set_length_of_find_isSome {l : List (K × Nat)} {key : K}
    (h : (alist_find l key).isSome) (val : Nat) :
    (alist_set l key val).length = l.length := by
  have hm := alist_set_map_fst_of_find_isSome h val
  have := congrArg List.length hm
  simpa using this

theorem alist_mem_set {l : List (K × Nat)} (hnd : keysNodup l) {key : K} {val : Nat}
    {p : K × Nat} (h : p ∈ alist_set l key val) :
    p = (key, val) ∨ (p ∈ l ∧ p.1 ≠ key) := by
  induction l with
  | nil =>
    simp only [alist_set, List.mem_singleton] at h
    exact Or.inl h
  | cons q rest ih =>
    rw [keysNodup, List.map_cons, List.nodup_cons] at hnd
    rw [alist_set] at h
    by_cases hq : q.1 = key
    · rw [if_pos hq] at h
      rcases List.mem_cons.mp h with heq | hmem
      · exact Or.inl heq
      · refine Or.inr ⟨List.mem_cons_of_mem _ hmem, ?_⟩
        intro hcontra
        exact hnd.1 (hq ▸ hcontra ▸ (List.mem_map.mpr ⟨p, hmem, rfl⟩))
    · rw [if_neg hq] at h
      rcases List.mem_cons.mp h with heq | hmem
      · exact Or.inr ⟨heq ▸ List.mem_cons_self _ _, heq ▸ hq⟩
      · rcases ih hnd.2 hmem with h1 | ⟨h1, h2⟩
        · exact Or.inl h1
        · exact Or.inr ⟨List.mem_cons_of_mem _ h1, h2⟩

end AlistLemmas

section GetDLemmas

variable {α : Type} [Inhabited α]

theorem getD_dropLast_eq (l : List α) (i : Nat) (h : i < l.length - 1) :
    l.dropLast.getD i default = l.getD i default := by
  have h1 : i < l.dropLast.length := by rw [List.length_dropLast]; exact h
  have h2 : i < l.length := by omega
  rw [List.getD_eq_getElem _ _ h1, List.getD_eq_getElem _ _ h2]
  exact List.getElem_dropLast l i h1

theorem getD_set_self_eq (l : List α) (i : Nat) (a : α) (h : i < l.length) :
    (l.set i a).getD i default = a := by
  have h1 : i < (l.set i a).length := by rw [List.length_set]; exact h
  rw [List.getD_eq_getElem _ _ h1]
  exact List.getElem_set_self h1

theorem getD_set_ne_eq (l : List α) (i j : Nat) (a : α) (hij : i ≠ j) :
    (l.set i a).getD j default = l.getD j default := by
  by_cases hj : j < l.length
  · have h1 : j < (l.set i a).length := by rw [List.length_set]; exact hj
    rw [List.getD_eq_getElem _ _ h1, List.getD_eq_getElem _ _ hj]
    exact List.getElem_set_ne hij h1
  · have hj' : l.length ≤ j := Nat.le_of_not_lt hj
    rw [List.getD_eq_default _ _ (by rw [List.length_set]; exact hj'),
      List.getD_eq_default _ _ hj']

theorem getD_append_left_eq (l1 l2 : List α) (i : Nat) (h : i < l1.length) :
    (l1 ++ l2).getD i default = l1.getD i default :=
  List.getD_append l1 l2 default i h

theorem getD_concat_length_eq (l : List α) (a : α) :
    (l ++ [a]).getD l.length default = a := by
  have h : l.length < (l ++ [a]).length := by simp
  rw [List.getD_eq_getElem _ _ h]
  exact List.getElem_concat_length l a l.length rfl h

end GetDLemmas

namespace RandomAccessUnorderedMap

variable {K V : Type} [DecidableEq K] [Inhabited K] [Inhabited V]

theorem invariant_empty : Invariant (empty : RandomAccessUnorderedMap K V) := by
  refine ⟨?_, ?_, rfl, ?_⟩
  · simp [empty, keysNodup]
  · intro p hp
    simp [empty] at hp
  · intro p hp
    simp [empty] at hp

theorem invariant_find_lt {m : RandomAccessUnorderedMap K V} (hm : Invariant m)
    {key : K} {i : Nat} (h : find_index m key = some i) :
    i < m.element_set.length ∧ (m.element_set.getD i default).key = key :=
  hm.2.1 (key, i) (alist_mem_of_find h)

/-- Completeness of the position index: under the invariant, every slot of
the dense store is indexed by its own key (a pigeonhole consequence of the
invariant together with `len(P) = len(S)`). -/
theorem invariant_find_slot {m : RandomAccessUnorderedMap K V} (hm : Invariant m)
    {j : Nat} (hj : j < m.element_set.length) :
    find_index m ((m.element_set.getD j default).key) = some j := by
  obtain ⟨hnd, hmem, hlen, hu32⟩ := hm
  have hfst : m.index_map.map Prod.fst =
      (m.index_map.map Prod.snd).map (fun i => (m.element_set.getD i default).key) := by
    rw [List.map_map]
    exact List.map_congr_left (fun p hp => ((hmem p hp).2).symm)
  have hnd2 : (m.index_map.map Prod.snd).Nodup := by
    have h1 : ((m.index_map.map Prod.snd).map
        (fun i => (m.element_set.getD i default).key)).Nodup := hfst ▸ hnd
    exact List.Nodup.of_map _ h1
  have hsub : (m.index_map.map Prod.snd).toFinset ⊆ Finset.range m.element_set.length := by
    intro i hi
    rw [List.mem_toFinset] at hi
    obtain ⟨p, hp, hpi⟩ := List.mem_map.mp hi
    rw [Finset.mem_range]
    exact hpi ▸ (hmem p hp).1
  have hcardeq : ((m.index_map.map Prod.snd).toFinset).card = m.element_set.length := by
    rw [List.toFinset_card_of_nodup hnd2, List.length_map]
    exact hlen
  have heq : (m.index_map.map Prod.snd).toFinset = Finset.range m.element_set.length :=
    Finset.eq_of_subset_of_card_le hsub (by rw [hcardeq, Finset.card_range])
  have hjmem : j ∈ m.index_map.map Prod.snd := by
    rw [← List.mem_toFinset, heq, Finset.mem_range]
    exact hj
  obtain ⟨p, hp, hpj⟩ := List.mem_map.mp hjmem
  have hkey : (m.element_set.getD j default).key = p.1 := by
    rw [← hpj]
    exact (hmem p hp).2
  rw [hkey]
  have hpmem : (p.1, j) ∈ m.index_map := by
    have h2 : (p.1, j) = p := by
      rw [← hpj]
    exact h2 ▸ hp
  exact alist_find_of_mem hnd hpmem

/-- Under the invariant the keys stored in the dense store are pairwise
distinct: a slot is determined by the key it holds. -/
theorem invariant_slot_key_injective {m : RandomAccessUnorderedMap K V} (hm : Invariant m)
    {i j : Nat} (hi : i < m.element_set.length) (hj : j < m.element_set.length)
    (hk : (m.element_set.getD i default).key = (m.element_set.getD j default).key) :
    i = j := by
  have h1 := invariant_find_slot hm hi
  have h2 := invariant_find_slot hm hj
  rw [hk] at h1
  rw [h1] at h2
  injection h2 with h3

/-- Under the invariant the store cannot exceed `2 ^ 32` entries: the index
holds one `uint32_t` slot value per entry and those values are pairwise
distinct. -/
theorem invariant_length_le {m : RandomAccessUnorderedMap K V} (hm : Invariant m) :
    m.element_set.length ≤ UINT32_MOD := by
  obtain ⟨hnd, hmem, hlen, hu32⟩ := hm
  have hfst : m.index_map.map Prod.fst =
      (m.index_map.map Prod.snd).map (fun i => (m.element_set.getD i default).key) := by
    rw [List.map_map]
    exact List.map_congr_left (fun p hp => ((hmem p hp).2).symm)
  have hnd2 : (m.index_map.map Prod.snd).Nodup := by
    have h1 : ((m.index_map.map Prod.snd).map
        (fun i => (m.element_set.getD i default).key)).Nodup := hfst ▸ hnd
    exact List.Nodup.of_map _ h1
  have hsub : (m.index_map.map Prod.snd).toFinset ⊆ Finset.range UINT32_MOD := by
    intro i hi
    rw [List.mem_toFinset] at hi
    obtain ⟨p, hp, hpi⟩ := List.mem_map.mp hi
    rw [Finset.mem_range]
    exact hpi ▸ hu32 p hp
  have hcard := Finset.card_le_card hsub
  rw [List.toFinset_card_of_nodup hnd2, List.length_map, Finset.card_range] at hcard
  omega

end RandomAccessUnorderedMap

namespace RandomAccessUnorderedMap

variable {K V : Type} [DecidableEq K] [Inhabited K] [Inhabited V]

theorem remove_of_find_none {m : RandomAccessUnorderedMap K V} {key : K}
    (h : find_index m key = none) : remove m key = m := by
  unfold remove
  rw [h]

theorem remove_of_find_some {m : RandomAccessUnorderedMap K V} {key : K} {index : Nat}
    (h : find_index m key = some index) : remove m key = removeFound m key index := by
  unfold remove
  rw [h]

theorem removeFound_last_state {m : RandomAccessUnorderedMap K V} {key : K} {index : Nat}
    (hcase : index = m.element_set.length - 1) :
    removeFound m key index = ⟨m.element_set.dropLast, alist_erase m.index_map key⟩ := by
  unfold removeFound
  rw [if_pos hcase]

theorem removeFound_swap_element_set {m : RandomAccessUnorderedMap K V} {key : K}
    {index : Nat} (hcase : index ≠ m.element_set.length - 1) :
    (removeFound m key index).element_set =
      ((m.element_set.set index (m.element_set.getD (m.element_set.length - 1) default)).set
        (m.element_set.length - 1) (m.element_set.getD index default)).dropLast := by
  unfold removeFound
  rw [if_neg hcase]

theorem removeFound_swap_index_map {m : RandomAccessUnorderedMap K V} {key : K}
    {index : Nat} (hcase : index ≠ m.element_set.length - 1) :
    (removeFound m key index).index_map =
      alist_erase (alist_set m.index_map
        (((((m.element_set.set index
              (m.element_set.getD (m.element_set.length - 1) default)).set
            (m.element_set.length - 1) (m.element_set.getD index default)).dropLast).getD
          index default).key) index) key := by
  unfold removeFound
  rw [if_neg hcase]

theorem swap_pop_length {m : RandomAccessUnorderedMap K V} {index : Nat} :
    (((m.element_set.set index (m.element_set.getD (m.element_set.length - 1) default)).set
      (m.element_set.length - 1) (m.element_set.getD index default)).dropLast).length
    = m.element_set.length - 1 := by
  simp only [List.length_dropLast, List.length_set]

theorem swap_pop_getD {m : RandomAccessUnorderedMap K V} {index : Nat}
    (hidx : index < m.element_set.length) (hlt : index < m.element_set.length - 1) :
    ∀ j, j < m.element_set.length - 1 →
      (((m.element_set.set index (m.element_set.getD (m.element_set.length - 1) default)).set
        (m.element_set.length - 1) (m.element_set.getD index default)).dropLast).getD j default
      = if j = index then m.element_set.getD (m.element_set.length - 1) default
        else m.element_set.getD j default := by
  intro j hj
  rw [getD_dropLast_eq _ j (by simp only [List.length_set]; exact hj)]
  by_cases hji : j = index
  · subst hji
    rw [if_pos rfl, getD_set_ne_eq _ _ _ _ (by omega), getD_set_self_eq _ _ _ hidx]
  · rw [if_neg hji, getD_set_ne_eq _ _ _ _ (by omega),
      getD_set_ne_eq _ _ _ _ (fun h => hji h.symm)]

end RandomAccessUnorderedMap

namespace RandomAccessUnorderedMap

variable {K V : Type} [DecidableEq K] [Inhabited K] [Inhabited V]

theorem find_of_find_index_some {m : RandomAccessUnorderedMap K V} {key : K} {i : Nat}
    (h : find_index m key = some i) :
    find m key = some ((m.element_set.getD i default).value) := by
  unfold find
  rw [h]

theorem find_of_find_index_none {m : RandomAccessUnorderedMap K V} {key : K}
    (h : find_index m key = none) : find m key = none := by
  unfold find
  rw [h]

theorem removeFound_last_spec {m : RandomAccessUnorderedMap K V} {key : K} {index : Nat}
    (hm : Invariant m) (hf : find_index m key = some index)
    (hcase : index = m.element_set.length - 1) :
    Invariant (removeFound m key index)
  ∧ (removeFound m key index).element_set = m.element_set.dropLast
  ∧ (removeFound m key index).element_set.length + 1 = m.element_set.length
  ∧ find_index (removeFound m key index) key = none
  ∧ (∀ k2, k2 ≠ key → find_index (removeFound m key index) k2 = find_index m k2)
  ∧ (∀ k2, k2 ≠ key → find (removeFound m key index) k2 = find m k2) := by
  obtain ⟨hidx, hkeyidx⟩ := invariant_find_lt hm hf
  obtain ⟨hnd, hmem, hlen, hu32⟩ := hm
  have hf' : alist_find m.index_map key = some index := hf
  have hn1 : 1 ≤ m.element_set.length := by omega
  have herlen : (alist_erase m.index_map key).length + 1 = m.index_map.length :=
    alist_erase_length (by rw [hf']; rfl)
  rw [removeFound_last_state hcase]
  subst hcase
  have hfind_stab : ∀ k2, k2 ≠ key →
      find_index (⟨m.element_set.dropLast, alist_erase m.index_map key⟩ :
        RandomAccessUnorderedMap K V) k2 = find_index m k2 := by
    intro k2 hne
    exact alist_find_erase_ne hne
  have hslot_ne : ∀ p : K × Nat, p ∈ m.index_map → p.1 ≠ key →
      p.2 < m.element_set.length - 1 := by
    intro p hp hpk
    obtain ⟨h1, h2⟩ := hmem p hp
    have : p.2 ≠ m.element_set.length - 1 := by
      intro h
      apply hpk
      rw [← h2, h]
      exact hkeyidx
    omega
  refine ⟨⟨keysNodup_erase hnd key, ?_, ?_, ?_⟩, rfl, ?_, ?_, hfind_stab, ?_⟩
  · intro p hp
    obtain ⟨hpP, hpk⟩ := alist_mem_erase hnd hp
    obtain ⟨h1, h2⟩ := hmem p hpP
    have hplt : p.2 < m.element_set.length - 1 := hslot_ne p hpP hpk
    constructor
    · show p.2 < m.element_set.dropLast.length
      rw [List.length_dropLast]
      exact hplt
    · show (m.element_set.dropLast.getD p.2 default).key = p.1
      rw [getD_dropLast_eq _ _ hplt]
      exact h2
  · show (alist_erase m.index_map key).length = m.element_set.dropLast.length
    rw [List.length_dropLast]
    omega
  · intro p hp
    exact hu32 p (alist_mem_erase hnd hp).1
  · show m.element_set.dropLast.length + 1 = m.element_set.length
    rw [List.length_dropLast]
    omega
  · exact alist_find_erase_self hnd key
  · intro k2 hne
    cases hk2 : find_index m k2 with
    | none =>
      rw [find_of_find_index_none ((hfind_stab k2 hne).trans hk2),
        find_of_find_index_none hk2]
    | some i =>
      rw [find_of_find_index_some ((hfind_stab k2 hne).trans hk2),
        find_of_find_index_some hk2]
      obtain ⟨hi, hik⟩ := hmem (k2, i) (alist_mem_of_find hk2)
      have hilt : i < m.element_set.length - 1 := hslot_ne (k2, i) (alist_mem_of_find hk2) hne
      show some ((m.element_set.dropLast.getD i default).value) = _
      rw [getD_dropLast_eq _ _ hilt]

end RandomAccessUnorderedMap

namespace RandomAccessUnorderedMap

variable {K V : Type} [DecidableEq K] [Inhabited K] [Inhabited V]

theorem removeFound_swap_spec {m : RandomAccessUnorderedMap K V} {key : K} {index : Nat}
    (hm : Invariant m) (hf : find_index m key = some index)
    (hcase : index ≠ m.element_set.length - 1) :
    Invariant (removeFound m key index)
  ∧ (removeFound m key index).element_set.length + 1 = m.element_set.length
  ∧ find_index (removeFound m key index) key = none
  ∧ (removeFound m key index).element_set.getD index default
      = m.element_set.getD (m.element_set.length - 1) default
  ∧ find_index (removeFound m key index)
      ((m.element_set.getD (m.element_set.length - 1) default).key) = some index
  ∧ (∀ k2, k2 ≠ key → find (removeFound m key index) k2 = find m k2) := by
  obtain ⟨hidx, hkeyidx⟩ := invariant_find_lt hm hf
  have hnd := hm.1
  have hmem := hm.2.1
  have hlen := hm.2.2.1
  have hu32 := hm.2.2.2
  have hf' : alist_find m.index_map key = some index := hf
  have hlt : index < m.element_set.length - 1 := by omega
  have hES := @removeFound_swap_element_set K V _ _ _ m key index hcase
  have hIM := @removeFound_swap_index_map K V _ _ _ m key index hcase
  have hgetDs := @swap_pop_getD K V _ _ _ m index hidx hlt
  have hlen2 : (removeFound m key index).element_set.length = m.element_set.length - 1 := by
    rw [hES]
    exact swap_pop_length
  have hgetD2 : ∀ j, j < m.element_set.length - 1 →
      (removeFound m key index).element_set.getD j default
      = if j = index then m.element_set.getD (m.element_set.length - 1) default
        else m.element_set.getD j default := by
    intro j hj
    rw [hES]
    exact hgetDs j hj
  have hidxL : (removeFound m key index).element_set.getD index default
      = m.element_set.getD (m.element_set.length - 1) default := by
    rw [hgetD2 index hlt, if_pos rfl]
  have hIM2 : (removeFound m key index).index_map
      = alist_erase (alist_set m.index_map
          ((m.element_set.getD (m.element_set.length - 1) default).key) index) key := by
    rw [hIM, ← hES, hidxL]
  have hLfind : find_index m ((m.element_set.getD (m.element_set.length - 1) default).key)
      = some (m.element_set.length - 1) := invariant_find_slot hm (by omega)
  have hLfind' : alist_find m.index_map
      ((m.element_set.getD (m.element_set.length - 1) default).key)
      = some (m.element_set.length - 1) := hLfind
  have hLk_ne : (m.element_set.getD (m.element_set.length - 1) default).key ≠ key := by
    intro h
    rw [h, hf] at hLfind
    injection hLfind with h2
    exact hcase h2
  have hndP1 : keysNodup (alist_set m.index_map
      ((m.element_set.getD (m.element_set.length - 1) default).key) index) := by
    unfold keysNodup
    rw [alist_set_map_fst_of_find_isSome (by rw [hLfind']; rfl) index]
    exact hnd
  have hP1len : (alist_set m.index_map
      ((m.element_set.getD (m.element_set.length - 1) default).key) index).length
      = m.index_map.length :=
    alist_set_length_of_find_isSome (by rw [hLfind']; rfl) index
  have hP1findL : alist_find (alist_set m.index_map
      ((m.element_set.getD (m.element_set.length - 1) default).key) index)
      ((m.element_set.getD (m.element_set.length - 1) default).key) = some index :=
    alist_find_set_self _ _ _
  have hP1findkey : alist_find (alist_set m.index_map
      ((m.element_set.getD (m.element_set.length - 1) default).key) index) key
      = some index := by
    rw [alist_find_set_ne (Ne.symm hLk_ne) index, hf']
  have hfind_rm : ∀ k2, find_index (removeFound m key index) k2
      = alist_find (alist_erase (alist_set m.index_map
          ((m.element_set.getD (m.element_set.length - 1) default).key) index) key) k2 := by
    intro k2
    show alist_find (removeFound m key index).index_map k2 = _
    rw [hIM2]
  have hfind_key : find_index (removeFound m key index) key = none := by
    rw [hfind_rm key]
    exact alist_find_erase_self hndP1 key
  have hfind_L : find_index (removeFound m key index)
      ((m.element_set.getD (m.element_set.length - 1) default).key) = some index := by
    rw [hfind_rm _, alist_find_erase_ne hLk_ne, hP1findL]
  have hslot_facts : ∀ p : K × Nat, p ∈ m.index_map → p.1 ≠ key →
      p.1 ≠ (m.element_set.getD (m.element_set.length - 1) default).key →
      p.2 < m.element_set.length - 1 ∧ p.2 ≠ index ∧
        (m.element_set.getD p.2 default).key = p.1 := by
    intro p hp hpk hpL
    obtain ⟨h1, h2⟩ := hmem p hp
    have hne_idx : p.2 ≠ index := by
      intro h
      apply hpk
      rw [← h2, h]
      exact hkeyidx
    have hne_last : p.2 ≠ m.element_set.length - 1 := by
      intro h
      apply hpL
      rw [← h2, h]
    exact ⟨by omega, hne_idx, h2⟩
  refine ⟨⟨?_, ?_, ?_, ?_⟩, ?_, hfind_key, hidxL, hfind_L, ?_⟩
  · show keysNodup (removeFound m key index).index_map
    rw [hIM2]
    exact keysNodup_erase hndP1 key
  · intro p hp
    rw [hIM2] at hp
    obtain ⟨hp1, hpk⟩ := alist_mem_erase hndP1 hp
    rcases alist_mem_set hnd hp1 with heq | ⟨hpP, hpL⟩
    · subst heq
      constructor
      · show index < (removeFound m key index).element_set.length
        rw [hlen2]
        exact hlt
      · show ((removeFound m key index).element_set.getD index default).key = _
        rw [hidxL]
    · obtain ⟨hplt, hpne, h2⟩ := hslot_facts p hpP hpk hpL
      constructor
      · show p.2 < (removeFound m key index).element_set.length
        rw [hlen2]
        exact hplt
      · show ((removeFound m key index).element_set.getD p.2 default).key = p.1
        rw [hgetD2 p.2 hplt, if_neg hpne]
        exact h2
  · show (removeFound m key index).index_map.length
        = (removeFound m key index).element_set.length
    rw [hIM2, hlen2]
    have hP2len : (alist_erase (alist_set m.index_map
        ((m.element_set.getD (m.element_set.length - 1) default).key) index) key).length + 1
        = (alist_set m.index_map
            ((m.element_set.getD (m.element_set.length - 1) default).key) index).length :=
      alist_erase_length (by rw [hP1findkey]; rfl)
    omega
  · intro p hp
    rw [hIM2] at hp
    obtain ⟨hp1, hpk⟩ := alist_mem_erase hndP1 hp
    rcases alist_mem_set hnd hp1 with heq | ⟨hpP, hpL⟩
    · subst heq
      exact hu32 (key, index) (alist_mem_of_find hf')
    · exact hu32 p hpP
  · rw [hlen2]
    omega
  · intro k2 hne
    by_cases hk2L : k2 = (m.element_set.getD (m.element_set.length - 1) default).key
    · subst hk2L
      rw [find_of_find_index_some hfind_L, find_of_find_index_some hLfind, hidxL]
    · have hchain : find_index (removeFound m key index) k2 = find_index m k2 := by
        rw [hfind_rm k2, alist_find_erase_ne hne, alist_find_set_ne hk2L index]
        rfl
      cases hk2 : find_index m k2 with
      | none =>
        rw [find_of_find_index_none (hchain.trans hk2), find_of_find_index_none hk2]
      | some i =>
        rw [find_of_find_index_some (hchain.trans hk2), find_of_find_index_some hk2]
        obtain ⟨hilt, hine, hik⟩ := hslot_facts (k2, i) (alist_mem_of_find hk2) hne hk2L
        rw [hgetD2 i hilt, if_neg hine]

end RandomAccessUnorderedMap

theorem alist_find_isSome_of_mem_keys {K : Type} [DecidableEq K] {l : List (K × Nat)}
    {key : K} (h : key ∈ l.map Prod.fst) : (alist_find l key).isSome := by
  induction l with
  | nil => simp at h
  | cons p rest ih =>
    rw [List.map_cons, List.mem_cons] at h
    rw [alist_find]
    by_cases hp : p.1 = key
    · rw [if_pos hp]
      rfl
    · rw [if_neg hp]
      exact ih (h.resolve_left (fun hh => hp hh.symm))

namespace RandomAccessUnorderedMap

variable {K V : Type} [DecidableEq K] [Inhabited K] [Inhabited V]

theorem remove_spec {m : RandomAccessUnorderedMap K V} {key : K} {index : Nat}
    (hm : Invariant m) (hf : find_index m key = some index) :
    Invariant (remove m key)
  ∧ (remove m key).element_set.length + 1 = m.element_set.length
  ∧ find_index (remove m key) key = none
  ∧ (∀ k2, k2 ≠ key → find (remove m key) k2 = find m k2) := by
  rw [remove_of_find_some hf]
  by_cases hcase : index = m.element_set.length - 1
  · obtain ⟨h1, _, h3, h4, _, h6⟩ := removeFound_last_spec hm hf hcase
    exact ⟨h1, h3, h4, h6⟩
  · obtain ⟨h1, h2, h3, _, _, h6⟩ := removeFound_swap_spec hm hf hcase
    exact ⟨h1, h2, h3, h6⟩

theorem invariant_remove {m : RandomAccessUnorderedMap K V} (hm : Invariant m) (key : K) :
    Invariant (remove m key) := by
  cases hf : find_index m key with
  | none =>
    rw [remove_of_find_none hf]
    exact hm
  | some index => exact (remove_spec hm hf).1

theorem find_index_remove_self {m : RandomAccessUnorderedMap K V} (hm : Invariant m)
    (key : K) : find_index (remove m key) key = none := by
  cases hf : find_index m key with
  | none =>
    rw [remove_of_find_none hf]
    exact hf
  | some index => exact (remove_spec hm hf).2.2.1

theorem find_remove_ne {m : RandomAccessUnorderedMap K V} (hm : Invariant m) {key k2 : K}
    (hne : k2 ≠ key) : find (remove m key) k2 = find m k2 := by
  cases hf : find_index m key with
  | none => rw [remove_of_find_none hf]
  | some index => exact (remove_spec hm hf).2.2.2 k2 hne

theorem find_remove_self {m : RandomAccessUnorderedMap K V} (hm : Invariant m) (key : K) :
    find (remove m key) key = none :=
  find_of_find_index_none (find_index_remove_self hm key)

theorem insert_element_set (m : RandomAccessUnorderedMap K V) (key : K) (value : V) :
    (insert m key value).element_set
      = (remove m key).element_set ++ [⟨key, value⟩] := rfl

theorem insert_index_map (m : RandomAccessUnorderedMap K V) (key : K) (value : V) :
    (insert m key value).index_map
      = alist_insert (remove m key).index_map key
          ((((remove m key).element_set ++ [(⟨key, value⟩ : Element K V)]).length - 1)
            % UINT32_MOD) := rfl

theorem insert_length (m : RandomAccessUnorderedMap K V) (key : K) (value : V) :
    (insert m key value).element_set.length
      = (remove m key).element_set.length + 1 := by
  rw [insert_element_set, List.length_append]
  rfl

end RandomAccessUnorderedMap

namespace RandomAccessUnorderedMap

variable {K V : Type} [DecidableEq K] [Inhabited K] [Inhabited V]

theorem insert_spec {m : RandomAccessUnorderedMap K V} (hm : Invariant m) (key : K)
    (value : V) (hsz : (remove m key).element_set.length < UINT32_MOD) :
    Invariant (insert m key value)
  ∧ (insert m key value).element_set.length = (remove m key).element_set.length + 1
  ∧ find_index (insert m key value) key = some ((remove m key).element_set.length)
  ∧ find (insert m key value) key = some value
  ∧ (∀ k2, k2 ≠ key → find (insert m key value) k2 = find m k2) := by
  have hm1 : Invariant (remove m key) := invariant_remove hm key
  have habs : find_index (remove m key) key = none := find_index_remove_self hm key
  have habs' : alist_find (remove m key).index_map key = none := habs
  have hkeys : key ∉ (remove m key).index_map.map Prod.fst := by
    intro h
    have h2 := alist_find_isSome_of_mem_keys h
    rw [habs'] at h2
    simp at h2
  have hinsP : (insert m key value).index_map
      = (remove m key).index_map ++ [(key, (remove m key).element_set.length)] := by
    rw [insert_index_map]
    have hidx_val : ((((remove m key).element_set
          ++ [(⟨key, value⟩ : Element K V)]).length - 1) % UINT32_MOD)
        = (remove m key).element_set.length := by
      have h0 : ((remove m key).element_set
          ++ [(⟨key, value⟩ : Element K V)]).length - 1
          = (remove m key).element_set.length := by
        simp
      rw [h0, Nat.mod_eq_of_lt hsz]
    rw [hidx_val]
    unfold alist_insert
    rw [habs']
    simp
  have hfind_ins_key : find_index (insert m key value) key
      = some ((remove m key).element_set.length) := by
    show alist_find (insert m key value).index_map key = _
    rw [hinsP, alist_find_append_right habs', alist_find]
    simp
  have hgetlast : (insert m key value).element_set.getD
      ((remove m key).element_set.length) default = ⟨key, value⟩ := by
    rw [insert_element_set]
    exact getD_concat_length_eq _ _
  have hlen_ins : (insert m key value).element_set.length
      = (remove m key).element_set.length + 1 := by
    rw [insert_element_set, List.length_append]
    rfl
  have hfind_ins_val : find (insert m key value) key = some value := by
    rw [find_of_find_index_some hfind_ins_key, hgetlast]
  obtain ⟨hnd1, hmem1, hlen1, hu32_1⟩ := hm1
  have hstab : ∀ k2, k2 ≠ key → find (insert m key value) k2 = find m k2 := by
    intro k2 hne
    have hfi : alist_find (insert m key value).index_map k2
        = alist_find (remove m key).index_map k2 := by
      rw [hinsP]
      cases hk2 : alist_find (remove m key).index_map k2 with
      | none =>
        rw [alist_find_append_right hk2, alist_find, if_neg (fun h => hne h.symm)]
        rfl
      | some i => rw [alist_find_append_left hk2]
    rw [← find_remove_ne hm hne]
    cases hk2 : find_index (remove m key) k2 with
    | none =>
      have h1 : find_index (insert m key value) k2 = none := by
        show alist_find (insert m key value).index_map k2 = none
        rw [hfi]
        exact hk2
      rw [find_of_find_index_none h1, find_of_find_index_none hk2]
    | some i =>
      have h1 : find_index (insert m key value) k2 = some i := by
        show alist_find (insert m key value).index_map k2 = some i
        rw [hfi]
        exact hk2
      rw [find_of_find_index_some h1, find_of_find_index_some hk2]
      obtain ⟨hi, _⟩ := invariant_find_lt ⟨hnd1, hmem1, hlen1, hu32_1⟩ hk2
      rw [insert_element_set, getD_append_left_eq _ _ _ hi]
  have hinv : Invariant (insert m key value) := by
    refine ⟨?_, ?_, ?_, ?_⟩
    · show keysNodup (insert m key value).index_map
      unfold keysNodup
      rw [hinsP, List.map_append]
      have hsing : (([(key, (remove m key).element_set.length)] :
          List (K × Nat)).map Prod.fst) = [key] := rfl
      rw [hsing, List.nodup_append]
      refine ⟨hnd1, List.nodup_singleton key, ?_⟩
      intro a ha hb
      rw [List.mem_singleton] at hb
      subst hb
      exact hkeys ha
    · intro p hp
      rw [hinsP] at hp
      rcases List.mem_append.mp hp with hpP | hpNew
      · obtain ⟨h1, h2⟩ := hmem1 p hpP
        constructor
        · rw [hlen_ins]
          omega
        · rw [insert_element_set, getD_append_left_eq _ _ _ h1]
          exact h2
      · rw [List.mem_singleton] at hpNew
        subst hpNew
        constructor
        · rw [hlen_ins]
          omega
        · show ((insert m key value).element_set.getD
              ((remove m key).element_set.length) default).key = key
          rw [hgetlast]
    · show (insert m key value).index_map.length = (insert m key value).element_set.length
      rw [hinsP, List.length_append, hlen_ins, hlen1]
      rfl
    · intro p hp
      rw [hinsP] at hp
      rcases List.mem_append.mp hp with hpP | hpNew
      · exact hu32_1 p hpP
      · rw [List.mem_singleton] at hpNew
        subst hpNew
        exact hsz
  exact ⟨hinv, hlen_ins, hfind_ins_key, hfind_ins_val, hstab⟩

theorem remove_length_le {m : RandomAccessUnorderedMap K V} (hm : Invariant m) (key : K) :
    (remove m key).element_set.length ≤ m.element_set.length := by
  cases hf : find_index m key with
  | none =>
    rw [remove_of_find_none hf]
  | some index =>
    have h1 := (remove_spec hm hf).2.1
    omega

theorem invariant_insert {m : RandomAccessUnorderedMap K V} (hm : Invariant m) (key : K)
    (value : V) (hsz : (remove m key).element_set.length < UINT32_MOD) :
    Invariant (insert m key value) :=
  (insert_spec hm key value hsz).1

theorem find_insert_self {m : RandomAccessUnorderedMap K V} (hm : Invariant m) (key : K)
    (value : V) (hsz : (remove m key).element_set.length < UINT32_MOD) :
    find (insert m key value) key = some value :=
  (insert_spec hm key value hsz).2.2.2.1

theorem find_insert_ne {m : RandomAccessUnorderedMap K V} (hm : Invariant m) {key k2 : K}
    (hne : k2 ≠ key) (value : V)
    (hsz : (remove m key).element_set.length < UINT32_MOD) :
    find (insert m key value) k2 = find m k2 :=
  (insert_spec hm key value hsz).2.2.2.2 k2 hne

end RandomAccessUnorderedMap

theorem filter_length_eq_one {l : List Nat} {p : Nat → Bool} (hnd : l.Nodup) {j : Nat}
    (hj : j ∈ l) (hp : p j = true) (huniq : ∀ i ∈ l, p i = true → i = j) :
    (l.filter p).length = 1 := by
  have hndf : (l.filter p).Nodup := hnd.filter p
  have hmemf : j ∈ l.filter p := List.mem_filter.mpr ⟨hj, hp⟩
  have hsub : (l.filter p).toFinset ⊆ {j} := by
    intro x hx
    rw [List.mem_toFinset, List.mem_filter] at hx
    rw [Finset.mem_singleton]
    exact huniq x hx.1 hx.2
  have heq : (l.filter p).toFinset = {j} :=
    Finset.Subset.antisymm hsub
      (Finset.singleton_subset_iff.mpr (List.mem_toFinset.mpr hmemf))
  have hcard := List.toFinset_card_of_nodup hndf
  rw [heq, Finset.card_singleton] at hcard
  omega

namespace RandomAccessUnorderedMap

variable {K V : Type} [DecidableEq K] [Inhabited K] [Inhabited V]

theorem applyOps_nil (m : RandomAccessUnorderedMap K V) : applyOps m [] = m := rfl

theorem applyOps_cons (m : RandomAccessUnorderedMap K V) (op : Op K V)
    (ops : List (Op K V)) : applyOps m (op :: ops) = applyOps (applyOp m op) ops := rfl

theorem applyOps_append (m : RandomAccessUnorderedMap K V) (l1 l2 : List (Op K V)) :
    applyOps m (l1 ++ l2) = applyOps (applyOps m l1) l2 := by
  unfold applyOps
  rw [List.foldl_append]

theorem invariant_applyOp {m : RandomAccessUnorderedMap K V} (hm : Invariant m)
    {op : Op K V} (hsz : (applyOp m op).element_set.length ≤ UINT32_MOD) :
    Invariant (applyOp m op) := by
  cases op with
  | ins k v =>
    have h1 : (insert m k v).element_set.length ≤ UINT32_MOD := hsz
    rw [insert_length] at h1
    exact invariant_insert hm k v (by omega)
  | rem k => exact invariant_remove hm k

theorem invariant_applyOps {m : RandomAccessUnorderedMap K V} (hm : Invariant m) :
    ∀ ops : List (Op K V),
      (∀ j, j ≤ ops.length →
        (applyOps m (ops.take j)).element_set.length ≤ UINT32_MOD) →
      Invariant (applyOps m ops) := by
  intro ops
  induction ops generalizing m with
  | nil =>
    intro _
    exact hm
  | cons op rest ih =>
    intro hb
    rw [applyOps_cons]
    have h1 : (applyOp m op).element_set.length ≤ UINT32_MOD := by
      have h2 := hb 1 (by simp)
      simpa [List.take_succ_cons, List.take_zero, applyOps_cons, applyOps_nil] using h2
    refine ih (invariant_applyOp hm h1) ?_
    intro j hj
    have h3 := hb (j + 1) (by simpa using Nat.succ_le_succ hj)
    simpa [List.take_succ_cons, applyOps_cons] using h3

theorem find_applyOp_untouched {m : RandomAccessUnorderedMap K V} (hm : Invariant m)
    {op : Op K V} {k : K} (hne : opKey op ≠ k)
    (hsz : (applyOp m op).element_set.length ≤ UINT32_MOD) :
    find (applyOp m op) k = find m k := by
  cases op with
  | ins k2 v =>
    have hne2 : k2 ≠ k := hne
    have h1 : (insert m k2 v).element_set.length ≤ UINT32_MOD := hsz
    rw [insert_length] at h1
    exact find_insert_ne hm (fun h => hne2 h.symm) v (by omega)
  | rem k2 =>
    have hne2 : k2 ≠ k := hne
    exact find_remove_ne hm (fun h => hne2 h.symm)

theorem find_applyOps_untouched {m : RandomAccessUnorderedMap K V} (hm : Invariant m)
    {k : K} : ∀ ops : List (Op K V),
      (∀ j, j ≤ ops.length →
        (applyOps m (ops.take j)).element_set.length ≤ UINT32_MOD) →
      (∀ op ∈ ops, opKey op ≠ k) →
      find (applyOps m ops) k = find m k := by
  intro ops
  induction ops generalizing m with
  | nil =>
    intro _ _
    rfl
  | cons op rest ih =>
    intro hb hops
    rw [applyOps_cons]
    have h1 : (applyOp m op).element_set.length ≤ UINT32_MOD := by
      have h2 := hb 1 (by simp)
      simpa [List.take_succ_cons, List.take_zero, applyOps_cons, applyOps_nil] using h2
    have hbrest : ∀ j, j ≤ rest.length →
        (applyOps (applyOp m op) (rest.take j)).element_set.length ≤ UINT32_MOD := by
      intro j hj
      have h3 := hb (j + 1) (by simpa using Nat.succ_le_succ hj)
      simpa [List.take_succ_cons, applyOps_cons] using h3
    rw [ih (invariant_applyOp hm h1) hbrest
      (fun o ho => hops o (List.mem_cons_of_mem _ ho))]
    exact find_applyOp_untouched hm (hops op (List.mem_cons_self _ _)) h1

theorem size_insert_new {m : RandomAccessUnorderedMap K V} (hm : Invariant m) {key : K}
    (hab : find_index m key = none) (value : V) :
    size (insert m key value) = size m + 1 := by
  show (insert m key value).element_set.length = m.element_set.length + 1
  rw [insert_length, remove_of_find_none hab]

theorem size_insert_present {m : RandomAccessUnorderedMap K V} (hm : Invariant m)
    {key : K} {index : Nat} (hf : find_index m key = some index) (value : V) :
    size (insert m key value) = size m := by
  show (insert m key value).element_set.length = m.element_set.length
  rw [insert_length]
  have h2 := (remove_spec hm hf).2.1
  omega

theorem size_remove_present {m : RandomAccessUnorderedMap K V} (hm : Invariant m)
    {key : K} {index : Nat} (hf : find_index m key = some index) :
    size (remove m key) + 1 = size m :=
  (remove_spec hm hf).2.1

theorem count_slots_with_key {m : RandomAccessUnorderedMap K V} (hm : Invariant m)
    {k : K} {j : Nat} (hf : find_index m k = some j) :
    ((List.range m.element_set.length).filter
      (fun i => (m.element_set.getD i default).key = k)).length = 1 := by
  obtain ⟨hj, hjk⟩ := invariant_find_lt hm hf
  apply filter_length_eq_one (List.nodup_range _) (List.mem_range.mpr hj)
  · exact decide_eq_true hjk
  · intro i hi hp
    rw [List.mem_range] at hi
    simp only [decide_eq_true_eq] at hp
    have h1 := invariant_find_slot hm hi
    rw [hp, hf] at h1
    injection h1 with h2
    exact h2.symm

theorem random_key_upper_bound_eq {m : RandomAccessUnorderedMap K V}
    (hpos : 0 < m.element_set.length) (hsize : m.element_set.length ≤ 2147483648) :
    random_key_upper_bound m = (m.element_set.length : Int) - 1 := by
  unfold random_key_upper_bound to_cpp_int
  have h1 : (m.element_set.length + UINT64_MOD - 1) % UINT64_MOD
      = m.element_set.length - 1 := by
    unfold UINT64_MOD
    omega
  rw [h1]
  have h2 : (m.element_set.length - 1) % UINT32_MOD = m.element_set.length - 1 := by
    unfold UINT32_MOD
    omega
  rw [h2, if_pos (by omega), Nat.cast_sub hpos]
  norm_num

end RandomAccessUnorderedMap

namespace RandomAccessUnorderedMap

variable {K V : Type} [DecidableEq K] [Inhabited K] [Inhabited V]

/-- C1 (amended): for every state produced from the empty container by a
finite sequence of insert, remove and find calls (find does not change the
state, so mutating sequences suffice) DURING WHICH THE DENSE STORE NEVER
EXCEEDS `2 ^ 32` ENTRIES, every key `k` with `P[k] = i` points at a valid
slot of the dense store with `S[i].key == k`, and the position index and
the dense store hold the same number of entries.  The bound is forced by
the code: the index map's value type is `uint32_t`, so the `2 ^ 32 + 1`-th
distinct-key insertion stores a wrapped slot and breaks the invariant (see
the counterexample). -/
theorem C1_reachable_invariant (ops : List (Op K V))
    (hsmall : ∀ j, j ≤ ops.length →
      (applyOps (empty : RandomAccessUnorderedMap K V) (ops.take j)).element_set.length
        ≤ UINT32_MOD) :
    (∀ k i, find_index (applyOps (empty : RandomAccessUnorderedMap K V) ops) k = some i →
        i < (applyOps (empty : RandomAccessUnorderedMap K V) ops).element_set.length ∧
        ((applyOps (empty : RandomAccessUnorderedMap K V) ops).element_set.getD
            i default).key = k)
  ∧ (applyOps (empty : RandomAccessUnorderedMap K V) ops).index_map.length
      = (applyOps (empty : RandomAccessUnorderedMap K V) ops).element_set.length := by
  have hm : Invariant (applyOps (empty : RandomAccessUnorderedMap K V) ops) :=
    invariant_applyOps invariant_empty ops hsmall
  exact ⟨fun k i hf => invariant_find_lt hm hf, hm.2.2.1⟩

/-- C2 (code bug at the empty container): `random_key` on an empty
container neither aborts nor returns an error.  `size() - 1` underflows in
`size_t` and then narrows into the distribution's `int` parameter as `-1`,
an invalid range (below the lower bound `0`, undefined behaviour), and the
key is read from an out-of-range slot of the empty store (also undefined
behaviour, modelled by the `default` element), so a meaningless value —
not even a live key — is silently returned. -/
theorem C2_random_key_empty_bug :
    random_key_upper_bound (empty : RandomAccessUnorderedMap Nat Nat) = -1
  ∧ random_key_upper_bound (empty : RandomAccessUnorderedMap Nat Nat) < 0
  ∧ random_key (empty : RandomAccessUnorderedMap Nat Nat) 0 = default
  ∧ random_key (empty : RandomAccessUnorderedMap Nat Nat) 5 = default
  ∧ find (empty : RandomAccessUnorderedMap Nat Nat)
      (random_key (empty : RandomAccessUnorderedMap Nat Nat) 0) = none := by
  refine ⟨by decide, by decide, rfl, rfl, rfl⟩

/-- C3: removing a present key `k` at slot `i` shortens the dense store by
one and erases `k` from the index; when `i` is the last slot nothing else
moves and no other key's slot changes; otherwise the entry formerly at the
last slot moves into slot `i` and its key is re-indexed to `i`; removing
the sole remaining element leaves both containers empty. -/
theorem C3_remove_swap_pop {m : RandomAccessUnorderedMap K V} {k : K} {i : Nat}
    (hm : Invariant m) (hf : find_index m k = some i) :
    (remove m k).element_set.length + 1 = m.element_set.length
  ∧ find_index (remove m k) k = none
  ∧ (i = m.element_set.length - 1 →
       (remove m k).element_set = m.element_set.dropLast
     ∧ ∀ k2, k2 ≠ k → find_index (remove m k) k2 = find_index m k2)
  ∧ (i ≠ m.element_set.length - 1 →
       (remove m k).element_set.getD i default
         = m.element_set.getD (m.element_set.length - 1) default
     ∧ find_index (remove m k)
         ((m.element_set.getD (m.element_set.length - 1) default).key) = some i)
  ∧ (m.element_set.length = 1 →
       (remove m k).element_set = [] ∧ (remove m k).index_map = []) := by
  refine ⟨(remove_spec hm hf).2.1, (remove_spec hm hf).2.2.1, ?_, ?_, ?_⟩
  · intro hcase
    obtain ⟨_, h2, _, _, h5, _⟩ := removeFound_last_spec hm hf hcase
    rw [remove_of_find_some hf]
    exact ⟨h2, h5⟩
  · intro hcase
    obtain ⟨_, _, _, h4, h5, _⟩ := removeFound_swap_spec hm hf hcase
    rw [remove_of_find_some hf]
    exact ⟨h4, h5⟩
  · intro hone
    have hinv2 := (remove_spec hm hf).1
    have hlen2 := (remove_spec hm hf).2.1
    have hS0 : (remove m k).element_set.length = 0 := by omega
    have hP0 : (remove m k).index_map.length = 0 := by
      rw [hinv2.2.2.1]
      exact hS0
    exact ⟨List.length_eq_zero.mp hS0, List.length_eq_zero.mp hP0⟩

/-- C8: removing an absent key leaves the whole state unchanged (it is a
no-op, not an error), and hence removing the same key twice has the same
observable effect as removing it once. -/
theorem C8_remove_noop_idempotent (m : RandomAccessUnorderedMap K V) (hm : Invariant m)
    (k : K) :
    (find_index m k = none → remove m k = m)
  ∧ remove (remove m k) k = remove m k :=
  ⟨remove_of_find_none, remove_of_find_none (find_index_remove_self hm k)⟩

end RandomAccessUnorderedMap

namespace RandomAccessUnorderedMap

variable {K V : Type} [DecidableEq K] [Inhabited K] [Inhabited V]

theorem find_index_isSome_of_find {m : RandomAccessUnorderedMap K V} {k : K} {v : V}
    (h : find m k = some v) : (find_index m k).isSome := by
  cases hf : find_index m k with
  | none =>
    rw [find_of_find_index_none hf] at h
    exact absurd h (by simp)
  | some i => rfl

/-- C4 (amended): after insert(k, v), find(k) returns v and keeps
returning v under any sequence of later operations not touching k; a later
insert(k, v2) makes find(k) return v2, a later remove(k) makes it return
not-found; find on a key never inserted returns the explicit not-found
result — find is a total function into an optional result, so it never
aborts.  Amendments forced by the `uint32_t` index value type: the initial
store holds fewer than `2 ^ 32` entries (at exactly `2 ^ 32` entries the
inserted key's recorded slot wraps to `0` and find(k) returns the slot-0
value, see the counterexample) and the traversed states stay within
`2 ^ 32` entries. -/
theorem C4_lookup_correct (m : RandomAccessUnorderedMap K V) (hm : Invariant m)
    (k : K) (v v2 : V) (ops : List (Op K V)) (hops : ∀ op ∈ ops, opKey op ≠ k)
    (hm_small : m.element_set.length < UINT32_MOD)
    (hsmall : ∀ j, j ≤ ops.length →
      (applyOps (insert m k v) (ops.take j)).element_set.length ≤ UINT32_MOD)
    (hsmall0 : ∀ j, j ≤ ops.length →
      (applyOps (empty : RandomAccessUnorderedMap K V) (ops.take j)).element_set.length
        ≤ UINT32_MOD) :
    find (insert m k v) k = some v
  ∧ find (applyOps (insert m k v) ops) k = some v
  ∧ find (insert (applyOps (insert m k v) ops) k v2) k = some v2
  ∧ find (remove (applyOps (insert m k v) ops) k) k = none
  ∧ (find_index m k = none → find m k = none)
  ∧ find (applyOps (empty : RandomAccessUnorderedMap K V) ops) k = none := by
  have hrm : (remove m k).element_set.length < UINT32_MOD :=
    Nat.lt_of_le_of_lt (remove_length_le hm k) hm_small
  have hins : Invariant (insert m k v) := invariant_insert hm k v hrm
  have hseq : Invariant (applyOps (insert m k v) ops) :=
    invariant_applyOps hins ops hsmall
  have hfound : find (applyOps (insert m k v) ops) k = some v := by
    rw [find_applyOps_untouched hins ops hsmall hops]
    exact find_insert_self hm k v hrm
  obtain ⟨i2, hf2⟩ :=
    Option.isSome_iff_exists.mp (find_index_isSome_of_find hfound)
  have hrm2 : (remove (applyOps (insert m k v) ops) k).element_set.length
      < UINT32_MOD := by
    have h1 := (remove_spec hseq hf2).2.1
    have h2 := invariant_length_le hseq
    omega
  refine ⟨find_insert_self hm k v hrm, hfound, find_insert_self hseq k v2 hrm2,
    find_remove_self hseq k, ?_, ?_⟩
  · exact find_of_find_index_none
  · rw [find_applyOps_untouched invariant_empty ops hsmall0 hops]
    exact find_of_find_index_none rfl

/-- C5 (amended): for every invariant-satisfying non-empty container OF AT
MOST `2 ^ 31` ENTRIES — so that `len(S) - 1` fits the `int` parameter of
`std::uniform_int_distribution<>`; beyond that the `size_t` value narrows
to a negative bound and the requested range is invalid, see the
counterexample — the slot range requested from the uniform distribution is
exactly `[0, len(S) - 1]`, the key returned for a drawn slot is the key
stored at that slot, every live key is produced by exactly one slot of
that range — so a uniformly drawn slot returns it with probability exactly
`1 / len(S)` — and every slot of the range produces a live key. -/
theorem C5_random_key_uniform (m : RandomAccessUnorderedMap K V) (hm : Invariant m)
    (hpos : 0 < m.element_set.length) (hsize : m.element_set.length ≤ 2147483648) :
    random_key_upper_bound m = (m.element_set.length : Int) - 1
  ∧ (∀ i, i < m.element_set.length →
      random_key m i = (m.element_set.getD i default).key)
  ∧ (∀ k, (find_index m k).isSome →
      ((List.range m.element_set.length).filter
        (fun i => random_key m i = k)).length = 1)
  ∧ (∀ i, i < m.element_set.length → (find_index m (random_key m i)).isSome) := by
  refine ⟨random_key_upper_bound_eq hpos hsize, fun i _ => rfl, ?_, ?_⟩
  · intro k hk
    obtain ⟨j, hf⟩ := Option.isSome_iff_exists.mp hk
    exact count_slots_with_key hm hf
  · intro i hi
    show (find_index m ((m.element_set.getD i default).key)).isSome
    rw [invariant_find_slot hm hi]
    rfl

/-- C6: the live-entry count rises by exactly one when inserting an absent
key, is unchanged when inserting a present key, falls by exactly one when
removing a present key, and is unchanged when removing an absent key;
size() (modelled from the spec as `len(S)`) reports this count. -/
theorem C6_size_conservation (m : RandomAccessUnorderedMap K V) (hm : Invariant m)
    (k : K) (v : V) :
    size m = m.element_set.length
  ∧ (find_index m k = none → size (insert m k v) = size m + 1)
  ∧ ((find_index m k).isSome → size (insert m k v) = size m)
  ∧ ((find_index m k).isSome → size (remove m k) + 1 = size m)
  ∧ (find_index m k = none → size (remove m k) = size m) := by
  refine ⟨rfl, ?_, ?_, ?_, ?_⟩
  · intro h
    exact size_insert_new hm h v
  · intro h
    obtain ⟨i, hf⟩ := Option.isSome_iff_exists.mp h
    exact size_insert_present hm hf v
  · intro h
    obtain ⟨i, hf⟩ := Option.isSome_iff_exists.mp h
    exact size_remove_present hm hf
  · intro h
    rw [remove_of_find_none h]

/-- C7: inserting a key that is already present replaces its value (a
following find returns the new value), keeps the entry count unchanged,
leaves exactly one slot of the dense store holding the key (no stale
slot), relocates the key to the last slot, and a repeated insert of the
same key moves it to the tail slot again. -/
theorem C7_insert_overwrite (m : RandomAccessUnorderedMap K V) (hm : Invariant m)
    (k : K) (i : Nat) (v2 v3 : V) (hf : find_index m k = some i) :
    find (insert m k v2) k = some v2
  ∧ size (insert m k v2) = size m
  ∧ find_index (insert m k v2) k = some (size m - 1)
  ∧ ((List.range (insert m k v2).element_set.length).filter
      (fun j => ((insert m k v2).element_set.getD j default).key = k)).length = 1
  ∧ find_index (insert (insert m k v2) k v3) k = some (size m - 1) := by
  have hrlen := (remove_spec hm hf).2.1
  have hmle := invariant_length_le hm
  have hszr : (remove m k).element_set.length < UINT32_MOD := by omega
  have hm2 : Invariant (insert m k v2) := invariant_insert hm k v2 hszr
  have hr_eq : (remove m k).element_set.length = size m - 1 := by
    show _ = m.element_set.length - 1
    omega
  have hfk2 : find_index (insert m k v2) k = some (size m - 1) := by
    rw [(insert_spec hm k v2 hszr).2.2.1, hr_eq]
  have hsz : size (insert m k v2) = size m := size_insert_present hm hf v2
  refine ⟨find_insert_self hm k v2 hszr, hsz, hfk2, ?_, ?_⟩
  · exact count_slots_with_key hm2 hfk2
  · have hrlen2 := (remove_spec hm2 hfk2).2.1
    have hmle2 := invariant_length_le hm2
    have hszr2 : (remove (insert m k v2) k).element_set.length < UINT32_MOD := by
      omega
    have hins_eq : (insert m k v2).element_set.length = size m := hsz
    have hr_eq2 : (remove (insert m k v2) k).element_set.length = size m - 1 := by
      omega
    rw [(insert_spec hm2 k v3 hszr2).2.2.1, hr_eq2]

/-- A concrete two-element container state used by the witnesses. -/
def sampleState : RandomAccessUnorderedMap Nat Nat :=
  ⟨[⟨1, 10⟩, ⟨2, 20⟩], [(1, 0), (2, 1)]⟩

/-- Witness for C1 at a concrete operation sequence. -/
theorem C1_reachable_invariant_witness :
    (0 < (applyOps (empty : RandomAccessUnorderedMap Nat Nat)
        [Op.ins 1 10, Op.ins 2 20, Op.rem 1]).element_set.length ∧
      ((applyOps (empty : RandomAccessUnorderedMap Nat Nat)
        [Op.ins 1 10, Op.ins 2 20, Op.rem 1]).element_set.getD 0 default).key = 2)
  ∧ (applyOps (empty : RandomAccessUnorderedMap Nat Nat)
        [Op.ins 1 10, Op.ins 2 20, Op.rem 1]).index_map.length
      = (applyOps (empty : RandomAccessUnorderedMap Nat Nat)
        [Op.ins 1 10, Op.ins 2 20, Op.rem 1]).element_set.length :=
  ⟨(C1_reachable_invariant [Op.ins 1 10, Op.ins 2 20, Op.rem 1]
      (by decide)).1 2 0 (by decide),
   (C1_reachable_invariant [Op.ins 1 10, Op.ins 2 20, Op.rem 1] (by decide)).2⟩

/-- Witness for C3 at a concrete swap-case removal. -/
theorem C3_remove_swap_pop_witness :
    Invariant sampleState ∧ find_index sampleState 1 = some 0
  ∧ (remove sampleState 1).element_set.length + 1 = sampleState.element_set.length
  ∧ find_index (remove sampleState 1) 1 = none :=
  ⟨by decide, by decide,
   (@C3_remove_swap_pop Nat Nat _ _ _ sampleState 1 0 (by decide) (by decide)).1,
   (@C3_remove_swap_pop Nat Nat _ _ _ sampleState 1 0 (by decide) (by decide)).2.1⟩

/-- Witness for C4 at a concrete state and operation sequence. -/
theorem C4_lookup_correct_witness :
    Invariant sampleState
  ∧ find (insert sampleState 3 30) 3 = some 30
  ∧ find (applyOps (insert sampleState 3 30) [Op.ins 1 99, Op.rem 1]) 3 = some 30
  ∧ find (remove (applyOps (insert sampleState 3 30) [Op.ins 1 99, Op.rem 1]) 3) 3
      = none :=
  ⟨by decide,
   (C4_lookup_correct sampleState (by decide) 3 30 31 [Op.ins 1 99, Op.rem 1]
     (by decide) (by decide) (by decide) (by decide)).1,
   (C4_lookup_correct sampleState (by decide) 3 30 31 [Op.ins 1 99, Op.rem 1]
     (by decide) (by decide) (by decide) (by decide)).2.1,
   (C4_lookup_correct sampleState (by decide) 3 30 31 [Op.ins 1 99, Op.rem 1]
     (by decide) (by decide) (by decide) (by decide)).2.2.2.1⟩

/-- Witness for C5 at a concrete two-element state. -/
theorem C5_random_key_uniform_witness :
    Invariant sampleState ∧ 0 < sampleState.element_set.length
  ∧ random_key_upper_bound sampleState = (sampleState.element_set.length : Int) - 1
  ∧ ((List.range sampleState.element_set.length).filter
      (fun i => random_key sampleState i = 1)).length = 1 :=
  ⟨by decide, by decide,
   (C5_random_key_uniform sampleState (by decide) (by decide) (by decide)).1,
   (C5_random_key_uniform sampleState (by decide) (by decide) (by decide)).2.2.1 1
     (by decide)⟩

/-- Witness for C6 at a concrete state: one insert of a new key, one
removal of a present key. -/
theorem C6_size_conservation_witness :
    Invariant sampleState
  ∧ size (insert sampleState 3 30) = size sampleState + 1
  ∧ size (remove sampleState 1) + 1 = size sampleState :=
  ⟨by decide,
   (C6_size_conservation sampleState (by decide) 3 30).2.1 (by decide),
   (C6_size_conservation sampleState (by decide) 1 30).2.2.2.1 (by decide)⟩

/-- Witness for C7 at a concrete overwrite of a present key. -/
theorem C7_insert_overwrite_witness :
    Invariant sampleState ∧ find_index sampleState 1 = some 0
  ∧ find (insert sampleState 1 30) 1 = some 30
  ∧ size (insert sampleState 1 30) = size sampleState
  ∧ find_index (insert sampleState 1 30) 1 = some (size sampleState - 1) :=
  ⟨by decide, by decide,
   (C7_insert_overwrite sampleState (by decide) 1 0 30 40 (by decide)).1,
   (C7_insert_overwrite sampleState (by decide) 1 0 30 40 (by decide)).2.1,
   (C7_insert_overwrite sampleState (by decide) 1 0 30 40 (by decide)).2.2.1⟩

/-- Witness for C8: double removal of a present key, removal of an absent
key. -/
theorem C8_remove_noop_idempotent_witness :
    Invariant sampleState
  ∧ remove (remove sampleState 1) 1 = remove sampleState 1
  ∧ remove sampleState 7 = sampleState :=
  ⟨by decide,
   (C8_remove_noop_idempotent sampleState (by decide) 1).2,
   (C8_remove_noop_idempotent sampleState (by decide) 7).1 (by decide)⟩

end RandomAccessUnorderedMap

namespace RandomAccessUnorderedMap

variable {K V : Type} [DecidableEq K] [Inhabited K] [Inhabited V]

theorem raum_ext {m1 m2 : RandomAccessUnorderedMap K V}
    (h1 : m1.element_set = m2.element_set) (h2 : m1.index_map = m2.index_map) :
    m1 = m2 := by
  cases m1
  cases m2
  simp_all

theorem insert_fresh_eq {m : RandomAccessUnorderedMap K V} {key : K}
    (h : find_index m key = none) (value : V) :
    insert m key value =
      ⟨m.element_set ++ [⟨key, value⟩],
        m.index_map ++ [(key, m.element_set.length % UINT32_MOD)]⟩ := by
  have h' : alist_find m.index_map key = none := h
  apply raum_ext
  · rw [insert_element_set, remove_of_find_none h]
  · rw [insert_index_map, remove_of_find_none h]
    have h1 : (m.element_set ++ [(⟨key, value⟩ : Element K V)]).length - 1
        = m.element_set.length := by
      simp
    rw [h1]
    unfold alist_insert
    rw [h']
    simp

/-- The dense store holding keys `0 .. n-1` in order (value 0 throughout). -/
def rangeElems (n : Nat) : List (Element Nat Nat) :=
  (List.range n).map (fun i => ⟨i, 0⟩)

/-- The position index recording key `i` at slot `i % 2 ^ 32` — exactly the
slot values the C++ insert stores during `n` distinct-key insertions. -/
def rangeIdx (n : Nat) : List (Nat × Nat) :=
  (List.range n).map (fun i => (i, i % UINT32_MOD))

/-- The container state after inserting the distinct keys `0 .. n-1` in
order into the empty container. -/
def rangeState (n : Nat) : RandomAccessUnorderedMap Nat Nat :=
  ⟨rangeElems n, rangeIdx n⟩

theorem rangeElems_succ (n : Nat) :
    rangeElems (n + 1) = rangeElems n ++ [(⟨n, 0⟩ : Element Nat Nat)] := by
  unfold rangeElems
  rw [List.range_succ, List.map_append]
  rfl

theorem rangeIdx_succ (n : Nat) :
    rangeIdx (n + 1) = rangeIdx n ++ [(n, n % UINT32_MOD)] := by
  unfold rangeIdx
  rw [List.range_succ, List.map_append]
  rfl

theorem rangeElems_length (n : Nat) : (rangeElems n).length = n := by
  unfold rangeElems
  rw [List.length_map, List.length_range]

theorem rangeIdx_length (n : Nat) : (rangeIdx n).length = n := by
  unfold rangeIdx
  rw [List.length_map, List.length_range]

theorem rangeElems_getD {n i : Nat} (h : i < n) :
    (rangeElems n).getD i default = ⟨i, 0⟩ := by
  have hl : i < (rangeElems n).length := by
    rw [rangeElems_length]
    exact h
  rw [List.getD_eq_getElem _ _ hl]
  unfold rangeElems
  simp

theorem alist_find_rangeIdx_ge {n k : Nat} (h : n ≤ k) :
    alist_find (rangeIdx n) k = none := by
  apply alist_find_eq_none_of_not_mem_keys
  intro hmem
  unfold rangeIdx at hmem
  rw [List.map_map] at hmem
  obtain ⟨i, hi, hik⟩ := List.mem_map.mp hmem
  rw [List.mem_range] at hi
  simp at hik
  omega

theorem alist_find_rangeIdx_lt {n k : Nat} (h : k < n) :
    alist_find (rangeIdx n) k = some (k % UINT32_MOD) := by
  induction n with
  | zero => omega
  | succ n ih =>
    rw [rangeIdx_succ]
    by_cases hk : k < n
    · rw [alist_find_append_left (ih hk)]
    · have hkn : k = n := by omega
      subst hkn
      rw [alist_find_append_right (alist_find_rangeIdx_ge (le_refl k)), alist_find,
        if_pos rfl]

theorem keysNodup_rangeIdx (n : Nat) : keysNodup (rangeIdx n) := by
  unfold keysNodup rangeIdx
  rw [List.map_map]
  have h1 : (Prod.fst ∘ fun i : Nat => (i, i % UINT32_MOD)) = fun i : Nat => i := rfl
  rw [h1]
  have h2 : List.map (fun i : Nat => i) (List.range n) = List.range n := by
    simp
  rw [h2]
  exact List.nodup_range _

theorem invariant_rangeState {n : Nat} (hn : n ≤ UINT32_MOD) :
    Invariant (rangeState n) := by
  refine ⟨keysNodup_rangeIdx n, ?_, ?_, ?_⟩
  · intro p hp
    have hp2 : p ∈ rangeIdx n := hp
    unfold rangeIdx at hp2
    obtain ⟨i, hi, hip⟩ := List.mem_map.mp hp2
    rw [List.mem_range] at hi
    have him : i % UINT32_MOD = i := Nat.mod_eq_of_lt (by omega)
    constructor
    · show p.2 < (rangeElems n).length
      rw [← hip]
      show i % UINT32_MOD < (rangeElems n).length
      rw [him, rangeElems_length]
      exact hi
    · show ((rangeElems n).getD p.2 default).key = p.1
      rw [← hip]
      show ((rangeElems n).getD (i % UINT32_MOD) default).key = i
      rw [him, rangeElems_getD hi]
  · show (rangeIdx n).length = (rangeElems n).length
    rw [rangeIdx_length, rangeElems_length]
  · intro p hp
    have hp2 : p ∈ rangeIdx n := hp
    unfold rangeIdx at hp2
    obtain ⟨i, hi, hip⟩ := List.mem_map.mp hp2
    rw [← hip]
    show i % UINT32_MOD < UINT32_MOD
    exact Nat.mod_lt _ (by decide)

/-- The state after inserting the distinct keys `0 .. n-1` in order is
exactly `rangeState n` (the removes inside the inserts are no-ops because
each key is fresh). -/
theorem applyOps_range_ins (n : Nat) :
    applyOps (empty : RandomAccessUnorderedMap Nat Nat)
      ((List.range n).map (fun i => Op.ins i 0)) = rangeState n := by
  induction n with
  | zero => rfl
  | succ n ih =>
    rw [List.range_succ, List.map_append, applyOps_append, ih]
    show insert (rangeState n) n 0 = rangeState (n + 1)
    have hfn : find_index (rangeState n) n = none :=
      alist_find_rangeIdx_ge (le_refl n)
    rw [insert_fresh_eq hfn 0]
    apply raum_ext
    · show rangeElems n ++ [(⟨n, 0⟩ : Element Nat Nat)] = rangeElems (n + 1)
      rw [rangeElems_succ]
    · show rangeIdx n ++ [(n, (rangeElems n).length % UINT32_MOD)] = rangeIdx (n + 1)
      rw [rangeElems_length, rangeIdx_succ]

theorem find_index_def (m : RandomAccessUnorderedMap K V) (key : K) :
    find_index m key = alist_find m.index_map key := rfl

theorem rangeState_element_set (n : Nat) : (rangeState n).element_set = rangeElems n := rfl

theorem rangeState_index_map (n : Nat) : (rangeState n).index_map = rangeIdx n := rfl

/-- Counterexample to C1 as originally stated: after `2 ^ 32 + 1`
insertions of pairwise-distinct keys — a reachable state — the slot the
`uint32_t` index map records for key `2 ^ 32` wrapped to `0`, while slot
`0` of the dense store holds key `0`: so `P[k] = i` holds with
`S[i].key ≠ k`, breaking the claimed invariant. -/
theorem C1_reachable_invariant_counterexample :
    find_index (applyOps (empty : RandomAccessUnorderedMap Nat Nat)
        ((List.range (UINT32_MOD + 1)).map (fun i => Op.ins i 0))) UINT32_MOD = some 0
  ∧ ¬ (((applyOps (empty : RandomAccessUnorderedMap Nat Nat)
        ((List.range (UINT32_MOD + 1)).map (fun i => Op.ins i 0))).element_set.getD
          0 default).key = UINT32_MOD) := by
  have heq := applyOps_range_ins (UINT32_MOD + 1)
  have h1 : find_index (rangeState (UINT32_MOD + 1)) UINT32_MOD = some 0 := by
    rw [find_index_def, rangeState_index_map, alist_find_rangeIdx_lt (by omega),
      Nat.mod_self]
  have h2 : ¬ ((rangeState (UINT32_MOD + 1)).element_set.getD 0 default).key
      = UINT32_MOD := by
    rw [rangeState_element_set, rangeElems_getD (by omega)]
    decide
  constructor
  · exact (congrArg (fun s => find_index s UINT32_MOD) heq).trans h1
  · intro hcontra
    exact h2 ((congrArg (fun s : RandomAccessUnorderedMap Nat Nat =>
      (s.element_set.getD 0 default).key) heq).symm.trans hcontra)

/-- Counterexample to C5 as originally stated: at an invariant-satisfying
container of `2 ^ 31 + 1` entries, the `size_t` value `size() - 1` narrows
into the `int` parameter of `std::uniform_int_distribution<>` as the
negative value `-2 ^ 31`: the program requests an invalid range, not the
claimed `[0, len(S) - 1]`. -/
theorem C5_random_key_uniform_counterexample :
    Invariant (rangeState 2147483649)
  ∧ 0 < (rangeState 2147483649).element_set.length
  ∧ random_key_upper_bound (rangeState 2147483649) < 0
  ∧ ¬ (random_key_upper_bound (rangeState 2147483649)
        = ((rangeState 2147483649).element_set.length : Int) - 1) := by
  have hlen : (rangeState 2147483649).element_set.length = 2147483649 := by
    rw [rangeState_element_set]
    exact rangeElems_length _
  have hb : random_key_upper_bound (rangeState 2147483649) = -2147483648 := by
    unfold random_key_upper_bound
    rw [hlen]
    decide
  refine ⟨invariant_rangeState (by decide), ?_, ?_, ?_⟩
  · rw [hlen]
    decide
  · rw [hb]
    decide
  · rw [hb, hlen]
    decide

end RandomAccessUnorderedMap

namespace RandomAccessUnorderedMap

variable {K V : Type} [DecidableEq K] [Inhabited K] [Inhabited V]

theorem insert_fresh_element_set {m : RandomAccessUnorderedMap K V} {key : K}
    (h : find_index m key = none) (value : V) :
    (insert m key value).element_set = m.element_set ++ [⟨key, value⟩] := by
  rw [insert_element_set, remove_of_find_none h]

theorem insert_fresh_index_map {m : RandomAccessUnorderedMap K V} {key : K}
    (h : find_index m key = none) (value : V) :
    (insert m key value).index_map
      = m.index_map ++ [(key, m.element_set.length % UINT32_MOD)] := by
  have h2 : alist_find m.index_map key = none := h
  rw [insert_index_map, remove_of_find_none h]
  have h1 : (m.element_set ++ [(⟨key, value⟩ : Element K V)]).length - 1
      = m.element_set.length := by
    simp
  rw [h1]
  unfold alist_insert
  rw [h2]
  simp

/-- Counterexample to C4 as originally stated: at the invariant-satisfying
state holding the `2 ^ 32` keys `0 .. 2 ^ 32 - 1`, inserting the fresh key
`2 ^ 32` with value `7` records the wrapped `uint32_t` slot `0`, so the
following find returns the slot-0 value `0` instead of `7`. -/
theorem C4_lookup_correct_counterexample :
    Invariant (rangeState UINT32_MOD)
  ∧ find (insert (rangeState UINT32_MOD) UINT32_MOD 7) UINT32_MOD = some 0
  ∧ ¬ (find (insert (rangeState UINT32_MOD) UINT32_MOD 7) UINT32_MOD = some 7) := by
  have hlenM : (rangeState UINT32_MOD).element_set.length = UINT32_MOD := by
    rw [rangeState_element_set]
    exact rangeElems_length _
  have hfresh : find_index (rangeState UINT32_MOD) UINT32_MOD = none := by
    rw [find_index_def, rangeState_index_map]
    exact alist_find_rangeIdx_ge (le_refl _)
  have hB : (insert (rangeState UINT32_MOD) UINT32_MOD 7).index_map
      = rangeIdx UINT32_MOD ++ [(UINT32_MOD, 0)] := by
    rw [insert_fresh_index_map hfresh 7, rangeState_index_map, hlenM, Nat.mod_self]
  have hA : (insert (rangeState UINT32_MOD) UINT32_MOD 7).element_set
      = rangeElems UINT32_MOD ++ [⟨UINT32_MOD, 7⟩] := by
    rw [insert_fresh_element_set hfresh 7, rangeState_element_set]
  have hf1 : find_index (insert (rangeState UINT32_MOD) UINT32_MOD 7) UINT32_MOD
      = some 0 := by
    rw [find_index_def, hB,
      alist_find_append_right (alist_find_rangeIdx_ge (le_refl _)), alist_find]
    simp
  have hval : find (insert (rangeState UINT32_MOD) UINT32_MOD 7) UINT32_MOD
      = some 0 := by
    rw [find_of_find_index_some hf1, hA,
      getD_append_left_eq _ _ _ (by rw [rangeElems_length]; decide),
      rangeElems_getD (by decide)]
  refine ⟨invariant_rangeState (le_refl _), hval, ?_⟩
  rw [hval]
  decide

end RandomAccessUnorderedMap
